import Mathlib

/-!
Verification of the pyPaRibbon B-matrix builder (btools.py, bmata.py).

The development shallowly embeds the program:

* `BTools.range` is the 1-D block decomposition (btools.py, `BTools.range`).
* `BTools.decodeIdx` is the flat-to-global index computation performed at
  emission time inside `BTools.do_thresh` (btools.py lines 294-309 and
  328-341).
* `BTools.pairEmit` is the body of the innermost loop of `do_thresh`
  (variance / covariance / correlation test and triple emission), and
  `BTools.do_thresh` is the full four-level loop nest, returning the list of
  emitted (B, I, J) triples in emission order.

Numeric values are modelled as exact rationals.  The only floating-point
behaviours that matter to the claims are (a) the square root inside the
correlation coefficient and (b) IEEE division by zero; `BTools.ccoefGE`
models the comparison `abs(covar)/math.sqrt(CII*CJJ) >= thresh` exactly,
with the zero-denominator case following IEEE semantics (0/0 is NaN, which
compares false; x/0 with x > 0 is +inf, which compares true against any
finite threshold).  The lemma `ccoefGE_iff_real` relates the decidable
comparison to the real-number expression the source computes.
-/

namespace BTools

/-- The block decomposition `BTools.range(gn, nprocs, myrank)` of btools.py:
one-based bounds are computed with `i1 = gn div nprocs`, `i2 = gn mod nprocs`,
`ib = myrank*i1 + 1 + min(myrank, i2)`, `ie = ib + i1 - 1 (+1 if i2 > myrank)`,
and the method returns the zero-based pair `(ib-1, ie-1)`. -/
def range (gn nprocs myrank : ℕ) : ℤ × ℤ :=
  let i1 : ℤ := (gn / nprocs : ℕ)
  let i2 : ℤ := (gn % nprocs : ℕ)
  let ib : ℤ := (myrank : ℤ) * i1 + 1 + min (myrank : ℤ) i2
  let ie : ℤ := ib + i1 - 1
  let ie' : ℤ := if i2 > (myrank : ℤ) then ie + 1 else ie
  (ib - 1, ie' - 1)

/-- Zero-based starting index of a rank's block, as a natural number
(the value is nonnegative whenever it is used as a loop offset). -/
def ibOf (gn nprocs myrank : ℕ) : ℕ := ((range gn nprocs myrank).1).toNat

/-- Number of columns owned by a rank: `ie - ib + 1`, clamped at zero the way
an empty Python `range(0, n)` loop is. -/
def widthOf (gn nprocs myrank : ℕ) : ℕ :=
  ((range gn nprocs myrank).2 + 1 - (range gn nprocs myrank).1).toNat

/-- The receive-buffer column capacity `nxmax_` computed in the constructor
(btools.py lines 44-49): the maximum of `ie-ib+1` over the ranks. -/
def nxmaxOf (gn nprocs : ℕ) : ℕ :=
  (List.range nprocs).foldl (fun acc i => max acc (widthOf gn nprocs i)) 0

/-- The flat-to-global index computation of `do_thresh` (btools.py lines
297-300 and 309, identically lines 329-332 and 341): given `f = lnb + i`,
compute `ig = f div (Nz*Ny)`, `jg = (f - ig*Nz*Ny) div Nz`,
`kg = f - jg*Nz - ig*Nz*Ny`, and return `ig + jg*Nx + kg*Ny*Nx`.
Here `gn = (Nz, Ny, Nx)` so `gn[0] = nz`, `gn[1] = ny`, `gn[2] = nx`. -/
def decodeIdx (nz ny nx f : ℕ) : ℕ :=
  let ig := f / (nz * ny)
  let ntmp := ig * (nz * ny)
  let jg := (f - ntmp) / nz
  let kg := f - jg * nz - ntmp
  ig + jg * nx + kg * ny * nx

/-- Sum of `f 0 + f 1 + ... + f (E-1)`, the accumulation a numpy reduction
over the ensemble axis performs (written recursively so that concrete
instances evaluate). -/
def sumTo : ℕ → (ℕ → ℚ) → ℚ
  | 0, _ => 0
  | n + 1, f => sumTo n f + f n

/-- The arithmetic mean over the `E` ensemble members of the squares,
modelling `np.mean(slice[:,i]**2)` (btools.py lines 310 and 319). -/
def meanSq (E : ℕ) (a : ℕ → ℚ) : ℚ := sumTo E (fun e => a e ^ 2) / E

/-- The arithmetic mean over the `E` ensemble members of the products,
modelling `np.mean(np.multiply(lslice[:,i], rslice[:,j]), 0)`
(btools.py lines 320-322). -/
def meanProd (E : ℕ) (a b : ℕ → ℚ) : ℚ := sumTo E (fun e => a e * b e) / E

/-- The retention test `abs(covar)/math.sqrt(CII*CJJ) >= thresh` of btools.py
lines 323 and 327, decided exactly.  When the denominator is zero the IEEE
float semantics of the source apply: `0.0/0.0` is NaN and every comparison
with NaN is false, while `x/0.0` with `x > 0` is `+inf`, which exceeds any
finite threshold. -/
def ccoefGE (covar CII CJJ thresh : ℚ) : Bool :=
  if CII * CJJ = 0 then
    if covar = 0 then false else true
  else if thresh ≤ 0 then true
  else decide (thresh ^ 2 * (CII * CJJ) ≤ covar ^ 2)

/-- Element `lslice[e, i]` where `lslice = ldata.reshape(E, Nz*Ny, nlslice)[:, :, ii]`
(btools.py lines 281 and 289): C-order index arithmetic of the reshape. -/
def lvalue (nzny nlslice : ℕ) (ldata : ℕ → ℚ) (i ii e : ℕ) : ℚ :=
  ldata (e * (nzny * nlslice) + i * nlslice + ii)

/-- Element `rslice[e, j]` where `rslice = rdata.reshape(E, Nz*Ny, nxmax_)[:, :, jj]`
(btools.py lines 268 and 315): note the reshape stride is `nxmax_`, not the
peer's own slab width. -/
def rvalue (nzny nxm : ℕ) (rdata : ℕ → ℚ) (j jj e : ℕ) : ℚ :=
  rdata (e * (nzny * nxm) + j * nxm + jj)

/-- Body of the innermost loop of `do_thresh` (btools.py lines 310-347) for
the slab columns `ii` (local) and `jj` (remote) and slice positions `i`
(local) and `j` (remote): compute `CII`, `CJJ`, `covar`, test the correlation
coefficient against the threshold, and emit `(covar, Ig, Jg)` when it passes. -/
def pairEmit (nz ny nx E nxm ibl ibr nlslice : ℕ) (thresh : ℚ)
    (ldata rdata : ℕ → ℚ) (ii i jj j : ℕ) : List (ℚ × ℕ × ℕ) :=
  let lnb := (ibl + ii) * (ny * nz)
  let rnb := ibr * (ny * nz) + jj * (ny * nz)
  let a := lvalue (nz * ny) nlslice ldata i ii
  let b := rvalue (nz * ny) nxm rdata j jj
  let CII := meanSq E a
  let CJJ := meanSq E b
  let covar := meanProd E a b
  if ccoefGE covar CII CJJ thresh then
    [(covar, decodeIdx nz ny nx (lnb + i), decodeIdx nz ny nx (rnb + j))]
  else []

/-- The triple stream of `BTools.do_thresh` (btools.py lines 241-349): the
four-level loop nest over local slab columns, local slice positions, remote
slab columns and remote slice positions, in source order.  The data arrays
are modelled as total functions from flat index to value, read exactly at the
offsets the numpy reshapes produce. -/
def do_thresh (nz ny nx nprocs E : ℕ) (thresh : ℚ) (myrank irecv : ℕ)
    (ldata rdata : ℕ → ℚ) : List (ℚ × ℕ × ℕ) :=
  let nxm := nxmaxOf nx nprocs
  let ibr := ibOf nx nprocs irecv
  let nrslice := widthOf nx nprocs irecv
  let ibl := ibOf nx nprocs myrank
  let nlslice := widthOf nx nprocs myrank
  (List.range nlslice).flatMap fun ii =>
    (List.range (nz * ny)).flatMap fun i =>
      (List.range nrslice).flatMap fun jj =>
        (List.range (nz * ny)).flatMap fun j =>
          pairEmit nz ny nx E nxm ibl ibr nlslice thresh ldata rdata ii i jj j

end BTools

/-- Flattened C-order slab of shape `(E, Nz*Ny, w)` read from a global field
`F e x p` (`x` = global x-column, `p = k*Ny + j` = slice position), starting
at x-column `ib`: entry `t = e*(Nz*Ny*w) + p*w + u` holds `F e (ib+u) p`.
This is `np.asarray(N, order='C').flatten()` of the slab in bmata.py. -/
def BTools.slabFlat (nzny w ib : ℕ) (F : ℕ → ℕ → ℕ → ℚ) : ℕ → ℚ :=
  fun t => F (t / (nzny * w)) (ib + t % w) (t % (nzny * w) / w)

/-- Rank `r`'s flattened local slab (`ldata` of buildB). -/
def BTools.ldataOf (nz ny nx nprocs : ℕ) (F : ℕ → ℕ → ℕ → ℚ) (r : ℕ) : ℕ → ℚ :=
  BTools.slabFlat (nz * ny) (BTools.widthOf nx nprocs r) (BTools.ibOf nx nprocs r) F

/-- Modelled from the spec: receive-buffer slot `r` after the slab exchange
of §4.2 ("slot r of the receive buffer contains rank r's slab padded to
Nx_max") — the concrete `MPI.Allgather` transport of btools.py line 190 is
outside the sources, so the slot is modelled as the peer's linearised slab
zero-padded to the `szbuff` capacity. -/
def BTools.recvSlot (nz ny nx nprocs E : ℕ) (F : ℕ → ℕ → ℕ → ℚ) (s : ℕ) : ℕ → ℚ :=
  fun t => if t < E * (nz * ny) * BTools.widthOf nx nprocs s
    then BTools.ldataOf nz ny nx nprocs F s t else 0

/-- `BTools.buildB` (btools.py lines 171-221) on rank `r`: iterate
`do_thresh` over the receive-buffer slots `0..P-1` and concatenate the
emitted triples. -/
def BTools.buildB (nz ny nx nprocs E : ℕ) (thresh : ℚ) (F : ℕ → ℕ → ℕ → ℚ)
    (r : ℕ) : List (ℚ × ℕ × ℕ) :=
  (List.range nprocs).flatMap fun s =>
    BTools.do_thresh nz ny nx nprocs E thresh r s
      (BTools.ldataOf nz ny nx nprocs F r) (BTools.recvSlot nz ny nx nprocs E F s)

/-- Union (concatenation) of the triples emitted by all `P` ranks. -/
def BTools.unionTriples (nz ny nx nprocs E : ℕ) (thresh : ℚ)
    (F : ℕ → ℕ → ℕ → ℚ) : List (ℚ × ℕ × ℕ) :=
  (List.range nprocs).flatMap fun r => BTools.buildB nz ny nx nprocs E thresh F r

/-- The (row, column) index pairs of the union of emitted triples. -/
def BTools.unionPairs (nz ny nx nprocs E : ℕ) (thresh : ℚ)
    (F : ℕ → ℕ → ℕ → ℚ) : List (ℕ × ℕ) :=
  (BTools.unionTriples nz ny nx nprocs E thresh F).map fun t => (t.2.1, t.2.2)

/-- The ensemble vector of the field at one grid point. -/
def BTools.fieldAt (F : ℕ → ℕ → ℕ → ℚ) (x p : ℕ) : ℕ → ℚ := fun e => F e x p

/-- Ensemble covariance of two grid points of the field. -/
def BTools.covarOf (E : ℕ) (F : ℕ → ℕ → ℕ → ℚ) (x p x' p' : ℕ) : ℚ :=
  BTools.meanProd E (BTools.fieldAt F x p) (BTools.fieldAt F x' p')

/-- The retention test evaluated on two grid points of the field. -/
def BTools.passes (E : ℕ) (thresh : ℚ) (F : ℕ → ℕ → ℕ → ℚ)
    (x p x' p' : ℕ) : Bool :=
  BTools.ccoefGE (BTools.covarOf E F x p x' p')
    (BTools.meanSq E (BTools.fieldAt F x p))
    (BTools.meanSq E (BTools.fieldAt F x' p')) thresh

/-- Global matrix index the kernel emits for x-column `x` and slice
position `p`. -/
def BTools.gidx (nz ny nx x p : ℕ) : ℕ :=
  BTools.decodeIdx nz ny nx (x * (ny * nz) + p)

namespace Bmata

/-- The column indices of one rank's triples that fall in row `g`
(bmata.py lines 112-125: after sorting on `I`, the loop over each unique row
visits exactly the `J` values of the triples whose row index is that row). -/
def rowJs (pairs : List (ℤ × ℤ)) (g : ℤ) : List ℤ :=
  (pairs.filter (fun pr => pr.1 = g)).map Prod.snd

/-- One rank's per-row column maximum: the running `max` of the row group
started at the fill value -1 (bmata.py lines 110, 113, 119, 124). -/
def JmaxLoc (pairs : List (ℤ × ℤ)) (g : ℤ) : ℤ :=
  (rowJs pairs g).foldl max (-1)

/-- One rank's per-row column minimum: the running `min` of the row group
started at the fill value `IMAX = G + 10` (bmata.py lines 109, 111, 114,
120, 125). -/
def JminLoc (G : ℕ) (pairs : List (ℤ × ℤ)) (g : ℤ) : ℤ :=
  (rowJs pairs g).foldl min ((G : ℤ) + 10)

/-- The MAX all-reduce of the per-rank row maxima (bmata.py lines 140-141). -/
def gJmax (ranks : List (List (ℤ × ℤ))) (g : ℤ) : ℤ :=
  (ranks.map (fun ps => JmaxLoc ps g)).foldl max (-1)

/-- The MIN all-reduce of the per-rank row minima (bmata.py lines 143-144). -/
def gJmin (G : ℕ) (ranks : List (List (ℤ × ℤ))) (g : ℤ) : ℤ :=
  (ranks.map (fun ps => JminLoc G ps g)).foldl min ((G : ℤ) + 10)

/-- The per-row ribbon widths `gJmax - gJmin` (bmata.py line 157), before
the negative sentinels are replaced by zero. -/
def widths (G : ℕ) (ranks : List (List (ℤ × ℤ))) : List ℤ :=
  (List.range G).map (fun g : ℕ => gJmax ranks (g : ℤ) - gJmin G ranks (g : ℤ))

/-- The sanity gate and width-vector output of bmata.py lines 147-172:
if any reduced row maximum reaches `G`, or any reduced row minimum is
negative, the run exits before writing anything (`none`); otherwise the
width vector is emitted with the remaining negative entries zeroed. -/
def ribbonOutput (G : ℕ) (ranks : List (List (ℤ × ℤ))) : Option (List ℤ) :=
  if (List.range G).any (fun g => (G : ℤ) ≤ gJmax ranks (g : ℤ)) then none
  else if (List.range G).any (fun g => gJmin G ranks (g : ℤ) < 0) then none
  else some ((widths G ranks).map (fun w => if w < 0 then 0 else w))

/-- `np.max` over a nonempty vector: fold of `max` over the elements. -/
def npMax : List ℤ → ℤ
  | [] => 0
  | x :: xs => xs.foldl max x

/-- Scanning argmax: carry the best value and its index, strict improvement
only, so the first maximal index wins (the `np.argmax` convention). -/
def argmaxAux : List ℤ → ℤ → ℕ → ℕ → ℕ
  | [], _, _, bi => bi
  | y :: ys, bv, idx, bi =>
    if bv < y then argmaxAux ys y (idx + 1) idx
    else argmaxAux ys bv (idx + 1) bi

/-- `np.argmax` over a nonempty vector (bmata.py line 159). -/
def npArgmax : List ℤ → ℕ
  | [] => 0
  | x :: xs => argmaxAux xs x 1 0

/-- `Wkeep = gJmax[gJmax > 0]` (bmata.py line 160). -/
def Wkeep (w : List ℤ) : List ℤ := w.filter (fun x => 0 < x)

/-- `avgWidth = np.sum(Wkeep) / len(Wkeep)` (bmata.py line 161). -/
def avgWidth (w : List ℤ) : ℚ :=
  (((Wkeep w).sum : ℤ) : ℚ) / ((Wkeep w).length : ℚ)

/-- The argument of the square root in `stdWidth` (bmata.py line 162):
`np.sum((Wkeep-avg)*(Wkeep-avg)) / len(Wkeep)`; the standard deviation
itself is its real square root. -/
def stdSq (w : List ℤ) : ℚ :=
  ((Wkeep w).map (fun x : ℤ => ((x : ℚ) - avgWidth w) ^ 2)).sum
    / ((Wkeep w).length : ℚ)

/-- The trimming comparison `x < avg + 2*sqrt s` of bmata.py line 163,
decided exactly for `s ≥ 0` (see `ltTrim_iff_real`). -/
def ltTrim (x a s : ℚ) : Bool :=
  decide (x < a) || decide ((x - a) ^ 2 < 4 * s)

/-- `Wkeep[Wkeep < avgWidth + 2*stdWidth]` (bmata.py line 163). -/
def Wkeep2 (w : List ℤ) : List ℤ :=
  (Wkeep w).filter (fun x : ℤ => ltTrim (x : ℚ) (avgWidth w) (stdSq w))

/-- `avgWidth1 = np.sum(Wkeep) / len(Wkeep)` over the trimmed vector
(bmata.py line 164). -/
def avgWidth1 (w : List ℤ) : ℚ :=
  (((Wkeep2 w).sum : ℤ) : ℚ) / ((Wkeep2 w).length : ℚ)

end Bmata

/-- Rank `r`'s emitted (row, column) pairs as signed integers, the form the
ribbon reducer consumes. -/
def BTools.rankPairsZ (nz ny nx nprocs E : ℕ) (thresh : ℚ)
    (F : ℕ → ℕ → ℕ → ℚ) (r : ℕ) : List (ℤ × ℤ) :=
  (BTools.buildB nz ny nx nprocs E thresh F r).map
    (fun t => ((t.2.1 : ℤ), (t.2.2 : ℤ)))

/-- All ranks' emitted (row, column) pairs, one list per rank. -/
def BTools.ranksZ (nz ny nx nprocs E : ℕ) (thresh : ℚ)
    (F : ℕ → ℕ → ℕ → ℚ) : List (List (ℤ × ℤ)) :=
  (List.range nprocs).map (BTools.rankPairsZ nz ny nx nprocs E thresh F)

/-- The scratch-array state of a `BTools` instance: the attributes
`self.Bp_`, `self.Ip_`, `self.Jp_`. -/
structure BTools.DTState where
  Bp : List ℚ
  Ip : List ℤ
  Jp : List ℤ

/-- A single array store `arr[n] = v`: Python raises IndexError (modelled by
`none`) when `n` is out of bounds. -/
def BTools.writeAt {α : Type} (l : List α) (n : ℕ) (v : α) : Option (List α) :=
  if n < l.length then some (l.set n v) else none

/-- The write loop of `do_thresh` (btools.py lines 343-347): store each
emitted triple at position `n` of the three output arrays and advance `n`. -/
def BTools.writeTriples :
    List (ℚ × ℕ × ℕ) → ℕ → List ℚ → List ℤ → List ℤ →
      Option (List ℚ × List ℤ × List ℤ)
  | [], _, B, I, J => some (B, I, J)
  | (v, ig, jg) :: ts, n, B, I, J =>
    match BTools.writeAt B n v, BTools.writeAt I n (ig : ℤ),
        BTools.writeAt J n (jg : ℤ) with
    | some B', some I', some J' => BTools.writeTriples ts (n + 1) B' I' J'
    | _, _, _ => none

/-- Stateful `do_thresh` in the buildB aliasing pattern, where the caller
passes the scratch attributes as the output arrays (btools.py line 201).
The capacity check of lines 249-255 rebinds the attributes to fresh zero
arrays of size `len(ldata)*len(rdata)` when that product exceeds the current
capacity, but the write loop keeps writing through the parameters, which
still alias the old arrays.  The result carries the returned count, the
written parameter arrays, and the attribute state after the call; `none`
models an IndexError escaping from the write loop. -/
def BTools.do_threshSt (nz ny nx nprocs E : ℕ) (thresh : ℚ) (myrank irecv : ℕ)
    (ldata rdata : ℕ → ℚ) (lenL lenR : ℕ) (st : BTools.DTState) :
    Option (ℕ × List ℚ × List ℤ × List ℤ × BTools.DTState) :=
  let realloc := st.Bp.length < lenL * lenR
  let ts := BTools.do_thresh nz ny nx nprocs E thresh myrank irecv ldata rdata
  match BTools.writeTriples ts 0 st.Bp st.Ip st.Jp with
  | none => none
  | some (B', I', J') =>
    some (ts.length, B', I', J',
      if realloc
      then ⟨List.replicate (lenL * lenR) 0, List.replicate (lenL * lenR) 0,
            List.replicate (lenL * lenR) 0⟩
      else ⟨B', I', J'⟩)

/-- The recursive ensemble sum agrees with the big-operator sum. -/
lemma BTools.sumTo_eq_sum (E : ℕ) (f : ℕ → ℚ) :
    sumTo E f = ∑ e ∈ Finset.range E, f e := by
  induction E with
  | zero => simp [sumTo]
  | succ n ih => rw [Finset.sum_range_succ, ← ih]; rfl

/-- Closed form of `BTools.range`: with `q = L div P` and `s = L mod P`, the
zero-based bounds are `ib = r*q + min(r, s)` and
`ie = ib + q - 1 + (1 if r < s else 0)`. -/
lemma BTools.range_eq (L P r : ℕ) :
    BTools.range L P r =
      ((r : ℤ) * ((L / P : ℕ) : ℤ) + min (r : ℤ) ((L % P : ℕ) : ℤ),
       (r : ℤ) * ((L / P : ℕ) : ℤ) + min (r : ℤ) ((L % P : ℕ) : ℤ)
         + ((L / P : ℕ) : ℤ) - 1
         + if (r : ℤ) < ((L % P : ℕ) : ℤ) then 1 else 0) := by
  simp only [BTools.range, Prod.mk.injEq]
  split_ifs with h <;> constructor <;> omega

/-- Claim C3: for positive `L` and `P ≥ 1` ranks, `range(L, P, r)` returns the
inclusive zero-based pair with `ib = r*q + min(r, s)` and
`ie = ib + q - 1 + (1 if r < s else 0)` where `q = L div P`, `s = L mod P`;
consequently rank 0 starts at 0, rank `P-1` ends at `L-1`, and consecutive
ranks abut, so the ranks cover `[0, L)` contiguously. -/
theorem BTools.range_partition (L P : ℕ) (hL : 0 < L) (hP : 0 < P) :
    (∀ r : ℕ, BTools.range L P r =
      ((r : ℤ) * ((L / P : ℕ) : ℤ) + min (r : ℤ) ((L % P : ℕ) : ℤ),
       (r : ℤ) * ((L / P : ℕ) : ℤ) + min (r : ℤ) ((L % P : ℕ) : ℤ)
         + ((L / P : ℕ) : ℤ) - 1
         + if (r : ℤ) < ((L % P : ℕ) : ℤ) then 1 else 0))
    ∧ (BTools.range L P 0).1 = 0
    ∧ (BTools.range L P (P - 1)).2 = (L : ℤ) - 1
    ∧ (∀ r : ℕ, (BTools.range L P (r + 1)).1 = (BTools.range L P r).2 + 1) := by
  have hdm : (P : ℤ) * ((L / P : ℕ) : ℤ) + ((L % P : ℕ) : ℤ) = (L : ℤ) := by
    exact_mod_cast Nat.div_add_mod L P
  have hmlt : L % P < P := Nat.mod_lt L hP
  refine ⟨fun r => BTools.range_eq L P r, ?_, ?_, ?_⟩
  · rw [BTools.range_eq]
    push_cast
    omega
  · rw [BTools.range_eq]
    have h1 : ((P - 1 : ℕ) : ℤ) = (P : ℤ) - 1 := by omega
    have hsle : ((L % P : ℕ) : ℤ) ≤ (P : ℤ) - 1 := by omega
    rw [h1, min_eq_right hsle, if_neg (by omega)]
    linear_combination hdm
  · intro r
    rw [BTools.range_eq, BTools.range_eq]
    have h1 : ((r + 1 : ℕ) : ℤ) = (r : ℤ) + 1 := by push_cast; ring
    rw [h1]
    rcases lt_or_le (r : ℤ) ((L % P : ℕ) : ℤ) with h | h
    · rw [min_eq_left (by omega), min_eq_left (by omega), if_pos h]
      ring
    · rw [min_eq_right h, min_eq_right (by omega), if_neg (not_lt.mpr h)]
      ring

/-- Witness for claim C3 at `L = 5`, `P = 3`: the three blocks are
`[0,1]`, `[2,3]`, `[4,4]`. -/
theorem BTools.range_partition_witness :
    (BTools.range 5 3 0).1 = 0 ∧ (BTools.range 5 3 (3 - 1)).2 = (5 : ℤ) - 1 ∧
      (BTools.range 5 3 1).1 = (BTools.range 5 3 0).2 + 1 := by
  obtain ⟨-, h1, h2, h3⟩ := BTools.range_partition 5 3 (by decide) (by decide)
  exact ⟨h1, h2, h3 0⟩

/-- Splitting lemma for the emission-time index computation: on an input of
the form `nz*ny*x + p` with `p < nz*ny` (slab column `x`, slice position `p`),
`decodeIdx` recovers `x` and then decomposes `p` as `(p div nz, p mod nz)`,
yielding `x + (p div nz)*nx + (p mod nz)*(ny*nx)`. -/
lemma BTools.decodeIdx_split (nz ny nx x p : ℕ) (hp : p < nz * ny) :
    BTools.decodeIdx nz ny nx (nz * ny * x + p)
      = x + p / nz * nx + p % nz * (ny * nx) := by
  have hpos : 0 < nz * ny := by omega
  simp only [BTools.decodeIdx]
  have h1 : (nz * ny * x + p) / (nz * ny) = x := by
    rw [Nat.mul_add_div hpos, Nat.div_eq_of_lt hp, Nat.add_zero]
  rw [h1, Nat.mul_comm x (nz * ny)]
  have h2 : nz * ny * x + p - nz * ny * x = p := by omega
  rw [h2]
  have h3 := Nat.mod_add_div p nz
  have h4 : nz * ny * x + p - p / nz * nz - nz * ny * x = p % nz := by
    have h5 : p / nz * nz = nz * (p / nz) := Nat.mul_comm _ _
    omega
  rw [h4]
  ring

/-- The flat index fed to `decodeIdx` by `do_thresh` is
`(ib + u) * (ny * nz) + p`, which is the `nz*ny*x + p` shape of
`decodeIdx_split` after commuting the factors. -/
lemma BTools.lnb_shape (nz ny x p : ℕ) :
    x * (ny * nz) + p = nz * ny * x + p := by ring

/-- Counterexample for claim C2: on the grid `(Nz, Ny, Nx) = (2, 2, 1)` with
one rank, one ensemble member, all samples 1 and threshold 1/2, the local
point at slab column `u = 0` and slice position `p = 2` (i.e. `k = 1`,
`j = 0`, since the slice axis is laid out as `p = k*Ny + j`) passes the
threshold and is emitted with row index 1, whereas the claimed convention
`(ib + u) + j*Nx + k*Nx*Ny = 0 + 0*1 + 1*(1*2)` gives 2. -/
theorem do_thresh_c2_counterexample :
    BTools.pairEmit 2 2 1 1 1 0 0 1 (1/2) (fun _ => 1) (fun _ => 1) 0 2 0 0
        = [(1, 1, 0)] ∧
      (1, 1, 0) ∈ BTools.do_thresh 2 2 1 1 1 (1/2) 0 0 (fun _ => 1) (fun _ => 1) ∧
      (1 : ℕ) ≠ 0 + 0 * 1 + 1 * (1 * 2) := by
  refine ⟨?_, ?_, by decide⟩
  · norm_num [BTools.pairEmit, BTools.meanSq, BTools.meanProd, BTools.sumTo,
      BTools.ccoefGE, BTools.lvalue, BTools.rvalue, BTools.decodeIdx]
  · norm_num [BTools.do_thresh, BTools.pairEmit, BTools.meanSq, BTools.meanProd,
      BTools.sumTo, BTools.ccoefGE, BTools.lvalue, BTools.rvalue, BTools.decodeIdx,
      BTools.nxmaxOf, BTools.ibOf, BTools.widthOf, BTools.range, List.range_succ]

/-- Claim C2, amended: every triple emitted by `do_thresh` for the local pair
`(ii, i)` against the remote pair `(jj, j)` records the row index
`(ib_local + ii) + (i div Nz)*Nx + (i mod Nz)*(Ny*Nx)` and the column index
`(ib_peer + jj) + (j div Nz)*Nx + (j mod Nz)*(Ny*Nx)`: the slice position is
decomposed by dividing by `Nz`, not by the `p = k*Ny + j` layout of the data.
When `Nz = 1` (the only extent the driver produces) this agrees with the
fixed convention `g = i + j*Nx + k*Nx*Ny`, the z-index being 0. -/
theorem do_thresh_c2_amended (nz ny nx E nxm ibl ibr nlslice : ℕ) (thresh : ℚ)
    (ldata rdata : ℕ → ℚ) (ii i jj j : ℕ) (hi : i < nz * ny) (hj : j < nz * ny) :
    ∀ v I J, (v, I, J) ∈ BTools.pairEmit nz ny nx E nxm ibl ibr nlslice
        thresh ldata rdata ii i jj j →
      I = (ibl + ii) + i / nz * nx + i % nz * (ny * nx)
      ∧ J = (ibr + jj) + j / nz * nx + j % nz * (ny * nx)
      ∧ (nz = 1 → ∀ k yj, i = k * ny + yj → yj < ny →
           I = (ibl + ii) + yj * nx + k * (nx * ny)) := by
  intro v I J hmem
  simp only [BTools.pairEmit] at hmem
  split at hmem
  case isFalse => simp at hmem
  case isTrue =>
    simp only [List.mem_singleton, Prod.mk.injEq] at hmem
    obtain ⟨-, hI, hJ⟩ := hmem
    rw [BTools.lnb_shape, BTools.decodeIdx_split nz ny nx (ibl + ii) i hi] at hI
    have hshape : ibr * (ny * nz) + jj * (ny * nz) + j
        = nz * ny * (ibr + jj) + j := by ring
    rw [hshape, BTools.decodeIdx_split nz ny nx (ibr + jj) j hj] at hJ
    refine ⟨hI, hJ, ?_⟩
    rintro rfl k yj hky hyj
    have hk : k = 0 := by
      rcases Nat.eq_zero_or_pos k with h | h
      · exact h
      · exfalso; rw [Nat.one_mul] at hi; nlinarith
    subst hk
    simp only [Nat.zero_mul, Nat.zero_add] at hky
    subst hky
    simp only [Nat.div_one, Nat.mod_one, Nat.zero_mul, Nat.add_zero] at hI
    omega

/-- Witness for the amended claim C2 at `Nz = 1`, `Ny = 2`, `Nx = 3`, all
samples 1, pair `(ii, i, jj, j) = (0, 1, 0, 0)`: the emitted row index is
`3 = (0+0) + (1 div 1)*3 + (1 mod 1)*(2*3)`, which also equals the fixed
convention value `(0+0) + 1*3 + 0*(3*2)`. -/
theorem do_thresh_c2_amended_witness :
    (3 : ℕ) = (0 + 0) + 1 / 1 * 3 + 1 % 1 * (2 * 3) ∧
      (3 : ℕ) = (0 + 0) + 1 * 3 + 0 * (3 * 2) := by
  have h := do_thresh_c2_amended 1 2 3 1 3 0 0 3 (1/2)
      (fun _ => 1) (fun _ => 1) 0 1 0 0 (by decide) (by decide)
      1 3 0 (by norm_num [BTools.pairEmit, BTools.meanSq, BTools.meanProd,
        BTools.sumTo, BTools.ccoefGE, BTools.lvalue, BTools.rvalue, BTools.decodeIdx])
  exact ⟨h.1, h.2.2 rfl 0 1 rfl (by decide)⟩

/-- The mean of squares over the ensemble is nonnegative. -/
lemma BTools.meanSq_nonneg (E : ℕ) (a : ℕ → ℚ) : 0 ≤ BTools.meanSq E a := by
  rw [BTools.meanSq, BTools.sumTo_eq_sum]
  exact div_nonneg (Finset.sum_nonneg fun e _ => sq_nonneg _) (Nat.cast_nonneg E)

/-- A zero mean of squares with a nonempty ensemble forces every member to be
zero at that point. -/
lemma BTools.meanSq_eq_zero_imp (E : ℕ) (a : ℕ → ℚ) (hE : E ≠ 0)
    (h : BTools.meanSq E a = 0) : ∀ e, e < E → a e = 0 := by
  intro e he
  rw [BTools.meanSq, BTools.sumTo_eq_sum] at h
  have hE' : ((E : ℚ)) ≠ 0 := Nat.cast_ne_zero.mpr hE
  rcases div_eq_zero_iff.mp h with h | h
  · have h2 := (Finset.sum_eq_zero_iff_of_nonneg
      (fun e _ => sq_nonneg (a e))).mp h e (Finset.mem_range.mpr he)
    exact pow_eq_zero_iff two_ne_zero |>.mp h2
  · exact absurd h hE'

/-- The retention test of btools.py line 327, with the real-number value of
`abs(covar)/math.sqrt(CII*CJJ)` (line 323), whenever the denominator is not
zero: the exact Boolean test agrees with the real comparison. -/
lemma BTools.ccoefGE_iff_real (covar CII CJJ thresh : ℚ)
    (h0 : CII * CJJ ≠ 0) (hnn : 0 ≤ CII * CJJ) :
    (BTools.ccoefGE covar CII CJJ thresh = true) ↔
      (thresh : ℝ) ≤ |(covar : ℝ)| / Real.sqrt ((CII : ℝ) * (CJJ : ℝ)) := by
  have hpos : (0 : ℝ) < (CII : ℝ) * (CJJ : ℝ) := by
    have h1 : (0 : ℚ) < CII * CJJ := lt_of_le_of_ne hnn (Ne.symm h0)
    exact_mod_cast h1
  have hs : 0 < Real.sqrt ((CII : ℝ) * (CJJ : ℝ)) := Real.sqrt_pos.mpr hpos
  rw [BTools.ccoefGE, if_neg h0]
  by_cases ht : thresh ≤ 0
  · rw [if_pos ht]
    constructor
    · intro _
      calc (thresh : ℝ) ≤ 0 := by exact_mod_cast ht
        _ ≤ |(covar : ℝ)| / Real.sqrt ((CII : ℝ) * (CJJ : ℝ)) :=
          div_nonneg (abs_nonneg _) (Real.sqrt_nonneg _)
    · intro _; rfl
  · rw [if_neg ht, decide_eq_true_eq, le_div_iff hs,
      ← pow_le_pow_iff_left (mul_nonneg (by exact_mod_cast le_of_lt (not_le.mp ht))
        (Real.sqrt_nonneg _)) (abs_nonneg _) (two_ne_zero),
      mul_pow, Real.sq_sqrt hpos.le, sq_abs]
    constructor
    · intro h; exact_mod_cast h
    · intro h; exact_mod_cast h

/-- Claim C1: for every pair of grid points processed by `do_thresh` whose
variance product is nonzero, a triple is emitted if and only if
`|mean_e(a*b)| / sqrt(mean_e(a^2) * mean_e(b^2)) >= tau`, where the means are
arithmetic means over the `E` ensemble members with no Bessel correction; the
stored value of every emitted triple is the signed covariance
`mean_e(a*b)`, not the correlation coefficient, and the emitted triple
belongs to the `do_thresh` output stream. -/
theorem do_thresh_c1 (nz ny nx nprocs E : ℕ) (thresh : ℚ) (myrank irecv : ℕ)
    (ldata rdata : ℕ → ℚ) (ii i jj j : ℕ)
    (hii : ii < BTools.widthOf nx nprocs myrank) (hi : i < nz * ny)
    (hjj : jj < BTools.widthOf nx nprocs irecv) (hj : j < nz * ny)
    (A B : ℕ → ℚ)
    (hA : A = BTools.lvalue (nz * ny) (BTools.widthOf nx nprocs myrank) ldata i ii)
    (hB : B = BTools.rvalue (nz * ny) (BTools.nxmaxOf nx nprocs) rdata j jj)
    (hden : ((∑ e ∈ Finset.range E, A e ^ 2) / E)
          * ((∑ e ∈ Finset.range E, B e ^ 2) / E) ≠ 0) :
    (BTools.pairEmit nz ny nx E (BTools.nxmaxOf nx nprocs)
        (BTools.ibOf nx nprocs myrank) (BTools.ibOf nx nprocs irecv)
        (BTools.widthOf nx nprocs myrank) thresh ldata rdata ii i jj j ≠ []
      ↔ (thresh : ℝ) ≤ |(((∑ e ∈ Finset.range E, A e * B e) / E : ℚ) : ℝ)| /
          Real.sqrt ((((∑ e ∈ Finset.range E, A e ^ 2) / E : ℚ) : ℝ)
            * (((∑ e ∈ Finset.range E, B e ^ 2) / E : ℚ) : ℝ)))
    ∧ ∀ v I J, (v, I, J) ∈ BTools.pairEmit nz ny nx E (BTools.nxmaxOf nx nprocs)
        (BTools.ibOf nx nprocs myrank) (BTools.ibOf nx nprocs irecv)
        (BTools.widthOf nx nprocs myrank) thresh ldata rdata ii i jj j →
      v = (∑ e ∈ Finset.range E, A e * B e) / E
      ∧ (v, I, J) ∈ BTools.do_thresh nz ny nx nprocs E thresh myrank irecv ldata rdata := by
  subst hA hB
  set L := BTools.lvalue (nz * ny) (BTools.widthOf nx nprocs myrank) ldata i ii with hL
  set R := BTools.rvalue (nz * ny) (BTools.nxmaxOf nx nprocs) rdata j jj with hR
  have hms1 : BTools.meanSq E L = (∑ e ∈ Finset.range E, L e ^ 2) / E := by
    rw [BTools.meanSq, BTools.sumTo_eq_sum]
  have hms2 : BTools.meanSq E R = (∑ e ∈ Finset.range E, R e ^ 2) / E := by
    rw [BTools.meanSq, BTools.sumTo_eq_sum]
  have hmp : BTools.meanProd E L R = (∑ e ∈ Finset.range E, L e * R e) / E := by
    rw [BTools.meanProd, BTools.sumTo_eq_sum]
  have hden' : BTools.meanSq E L * BTools.meanSq E R ≠ 0 := by
    rw [hms1, hms2]; exact hden
  have hiff := BTools.ccoefGE_iff_real (BTools.meanProd E L R)
    (BTools.meanSq E L) (BTools.meanSq E R) thresh hden'
    (mul_nonneg (BTools.meanSq_nonneg E L) (BTools.meanSq_nonneg E R))
  rw [hms1, hms2, hmp] at hiff
  constructor
  · have hiff2 : BTools.pairEmit nz ny nx E (BTools.nxmaxOf nx nprocs)
        (BTools.ibOf nx nprocs myrank) (BTools.ibOf nx nprocs irecv)
        (BTools.widthOf nx nprocs myrank) thresh ldata rdata ii i jj j ≠ []
        ↔ BTools.ccoefGE (BTools.meanProd E L R)
            (BTools.meanSq E L) (BTools.meanSq E R) thresh = true := by
      simp only [BTools.pairEmit]
      by_cases hc : BTools.ccoefGE (BTools.meanProd E L R)
          (BTools.meanSq E L) (BTools.meanSq E R) thresh = true
      · simp [hc]
      · simp [hc]
    rw [hiff2, hms1, hms2, hmp]
    exact hiff
  · intro v I J hm
    simp only [BTools.pairEmit] at hm
    split at hm
    case isFalse => simp at hm
    case isTrue hc =>
      simp only [List.mem_singleton, Prod.mk.injEq] at hm
      obtain ⟨hv, hI, hJ⟩ := hm
      refine ⟨by rw [hv, ← hL, ← hR]; exact hmp, ?_⟩
      simp only [BTools.do_thresh]
      refine List.mem_flatMap.mpr ⟨ii, List.mem_range.mpr hii, ?_⟩
      refine List.mem_flatMap.mpr ⟨i, List.mem_range.mpr hi, ?_⟩
      refine List.mem_flatMap.mpr ⟨jj, List.mem_range.mpr hjj, ?_⟩
      refine List.mem_flatMap.mpr ⟨j, List.mem_range.mpr hj, ?_⟩
      simp only [BTools.pairEmit, if_pos hc]
      exact List.mem_singleton.mpr (by rw [← hv, ← hI, ← hJ])

/-- Witness for claim C1 on a one-point grid with `E = 2` and all samples 3:
the variance product is `9 * 9`, the correlation coefficient is 1, and at
threshold 1/2 the pair is emitted. -/
theorem do_thresh_c1_witness :
    BTools.pairEmit 1 1 1 2 (BTools.nxmaxOf 1 1) (BTools.ibOf 1 1 0)
      (BTools.ibOf 1 1 0) (BTools.widthOf 1 1 0) (1/2)
      (fun _ => 3) (fun _ => 3) 0 0 0 0 ≠ [] := by
  have h := (do_thresh_c1 1 1 1 1 2 (1/2) 0 0 (fun _ => 3) (fun _ => 3) 0 0 0 0
    (by decide) (by decide) (by decide) (by decide) _ _ rfl rfl
    (by norm_num [BTools.lvalue, BTools.rvalue, Finset.sum_range_succ])).1
  refine h.mpr ?_
  have e1 : (∑ e ∈ Finset.range 2,
      BTools.lvalue (1 * 1) (BTools.widthOf 1 1 0) (fun _ => (3 : ℚ)) 0 0 e ^ 2) = 18 := by
    norm_num [BTools.lvalue, Finset.sum_range_succ]
  have e2 : (∑ e ∈ Finset.range 2,
      BTools.rvalue (1 * 1) (BTools.nxmaxOf 1 1) (fun _ => (3 : ℚ)) 0 0 e ^ 2) = 18 := by
    norm_num [BTools.rvalue, Finset.sum_range_succ]
  have e3 : (∑ e ∈ Finset.range 2,
      BTools.lvalue (1 * 1) (BTools.widthOf 1 1 0) (fun _ => (3 : ℚ)) 0 0 e
        * BTools.rvalue (1 * 1) (BTools.nxmaxOf 1 1) (fun _ => (3 : ℚ)) 0 0 e) = 18 := by
    norm_num [BTools.lvalue, BTools.rvalue, Finset.sum_range_succ]
  rw [e1, e2, e3]
  have e4 : ((18 : ℚ) / ((2 : ℕ) : ℚ)) = 9 := by norm_num
  rw [e4]
  have hsq : Real.sqrt (((9 : ℚ) : ℝ) * ((9 : ℚ) : ℝ)) = 9 := by
    rw [show (((9 : ℚ) : ℝ) * ((9 : ℚ) : ℝ)) = 9 ^ 2 by norm_num, Real.sqrt_sq (by norm_num)]
  rw [hsq]
  norm_num

/-- A zero variance product forces a zero covariance and hence, under the
NaN comparison semantics of `ccoefGE`, an empty emission for the pair. -/
lemma BTools.pairEmit_eq_nil (nz ny nx E nxm ibl ibr nlslice : ℕ) (thresh : ℚ)
    (ldata rdata : ℕ → ℚ) (ii i jj j : ℕ)
    (hden : BTools.meanSq E (BTools.lvalue (nz * ny) nlslice ldata i ii)
          * BTools.meanSq E (BTools.rvalue (nz * ny) nxm rdata j jj) = 0) :
    BTools.pairEmit nz ny nx E nxm ibl ibr nlslice thresh ldata rdata ii i jj j
      = [] := by
  set L := BTools.lvalue (nz * ny) nlslice ldata i ii with hL
  set R := BTools.rvalue (nz * ny) nxm rdata j jj with hR
  have hcv : BTools.meanProd E L R = 0 := by
    rcases Nat.eq_zero_or_pos E with hE | hE
    · subst hE
      simp [BTools.meanProd, BTools.sumTo]
    · rcases mul_eq_zero.mp hden with h | h
      · rw [BTools.meanProd, BTools.sumTo_eq_sum, Finset.sum_eq_zero, zero_div]
        intro e he
        rw [BTools.meanSq_eq_zero_imp E L (Nat.pos_iff_ne_zero.mp hE) h e
          (Finset.mem_range.mp he), zero_mul]
      · rw [BTools.meanProd, BTools.sumTo_eq_sum, Finset.sum_eq_zero, zero_div]
        intro e he
        rw [BTools.meanSq_eq_zero_imp E R (Nat.pos_iff_ne_zero.mp hE) h e
          (Finset.mem_range.mp he), mul_zero]
  have hcc : BTools.ccoefGE (BTools.meanProd E L R)
      (BTools.meanSq E L) (BTools.meanSq E R) thresh = false := by
    rw [BTools.ccoefGE, if_pos hden, if_pos hcv]
  simp [BTools.pairEmit, hcc]

/-- Claim C4: whenever the variance product of a processed pair is zero, the
kernel emits nothing for that pair (and, being total, raises no exception):
the covariance is then necessarily zero, so the source computes `0.0/0.0`,
a NaN, and the NaN comparison is false for every threshold. -/
theorem do_thresh_c4 (nz ny nx E nxm ibl ibr nlslice : ℕ) (thresh : ℚ)
    (ldata rdata : ℕ → ℚ) (ii i jj j : ℕ)
    (hden : BTools.meanSq E (BTools.lvalue (nz * ny) nlslice ldata i ii)
          * BTools.meanSq E (BTools.rvalue (nz * ny) nxm rdata j jj) = 0) :
    BTools.pairEmit nz ny nx E nxm ibl ibr nlslice thresh ldata rdata ii i jj j
      = [] :=
  BTools.pairEmit_eq_nil nz ny nx E nxm ibl ibr nlslice thresh ldata rdata ii i jj j hden

/-- Witness for claim C4: a zero-variance local point (all samples 0) against
a nonzero remote point emits nothing even at the threshold -1, where any
noise-free comparison would succeed. -/
theorem do_thresh_c4_witness :
    BTools.pairEmit 1 1 1 1 1 0 0 1 (-1) (fun _ => 0) (fun _ => 17) 0 0 0 0
      = [] := by
  exact do_thresh_c4 1 1 1 1 1 0 0 1 (-1) (fun _ => 0) (fun _ => 17) 0 0 0 0
    (by norm_num [BTools.meanSq, BTools.sumTo, BTools.lvalue])

/-- In the single-rank run on the grid `(Nz, Ny, Nx) = (1, 2, 3)` with all
samples 1, the pair `(0, 5)` is emitted (row `(x,p) = (0,0)`, column
`(x,p) = (2,1)`). -/
lemma BTools.pair05_mem_one :
    (0, 5) ∈ BTools.unionPairs 1 2 3 1 1 (1/2) (fun _ _ _ => 1) := by
  refine List.mem_map.mpr ⟨((1 : ℚ), 0, 5), ?_, rfl⟩
  refine List.mem_flatMap.mpr ⟨0, by decide, ?_⟩
  refine List.mem_flatMap.mpr ⟨0, by decide, ?_⟩
  simp only [BTools.do_thresh]
  refine List.mem_flatMap.mpr ⟨0, List.mem_range.mpr (by decide), ?_⟩
  refine List.mem_flatMap.mpr ⟨0, List.mem_range.mpr (by decide), ?_⟩
  refine List.mem_flatMap.mpr ⟨2, List.mem_range.mpr (by decide), ?_⟩
  refine List.mem_flatMap.mpr ⟨1, List.mem_range.mpr (by decide), ?_⟩
  have h : BTools.pairEmit 1 2 3 1 (BTools.nxmaxOf 3 1) (BTools.ibOf 3 1 0)
      (BTools.ibOf 3 1 0) (BTools.widthOf 3 1 0) (1/2)
      (BTools.ldataOf 1 2 3 1 (fun _ _ _ => 1) 0)
      (BTools.recvSlot 1 2 3 1 1 (fun _ _ _ => 1) 0) 0 0 2 1
      = [((1 : ℚ), 0, 5)] := by
    norm_num [BTools.pairEmit, BTools.meanSq, BTools.meanProd, BTools.sumTo,
      BTools.ccoefGE, BTools.lvalue, BTools.rvalue, BTools.decodeIdx,
      BTools.nxmaxOf, BTools.ibOf, BTools.widthOf, BTools.range,
      BTools.ldataOf, BTools.recvSlot, BTools.slabFlat, List.range_succ,
      show Int.toNat 3 = 3 from rfl, show Int.toNat 2 = 2 from rfl,
      Int.toNat_zero, Int.toNat_one]
  rw [h]
  exact List.mem_singleton.mpr rfl

/-- In the two-rank run on the same grid and data, no triple with column
index 5 is emitted: the only loop indices that decode to column 5 are peer
rank 1, remote slab column 0, remote slice position 1, and there the value
is read from the receive-slot padding, so the variance vanishes and the pair
is dropped. -/
lemma BTools.pair05_not_mem_two :
    ¬ ((0, 5) ∈ BTools.unionPairs 1 2 3 2 1 (1/2) (fun _ _ _ => 1)) := by
  intro h
  obtain ⟨⟨v, I, J⟩, ht, hpr⟩ := List.mem_map.mp h
  obtain ⟨hI, hJ⟩ : I = 0 ∧ J = 5 := by
    simpa [Prod.ext_iff] using hpr
  subst hI hJ
  obtain ⟨r, hr, ht⟩ := List.mem_flatMap.mp ht
  obtain ⟨s, hs, ht⟩ := List.mem_flatMap.mp ht
  rw [List.mem_range] at hr hs
  simp only [BTools.do_thresh] at ht
  obtain ⟨ii, hii, ht⟩ := List.mem_flatMap.mp ht
  obtain ⟨i, hi, ht⟩ := List.mem_flatMap.mp ht
  obtain ⟨jj, hjj, ht⟩ := List.mem_flatMap.mp ht
  obtain ⟨j, hj, ht⟩ := List.mem_flatMap.mp ht
  rw [List.mem_range] at hii hi hjj hj
  interval_cases s
  · -- peer rank 0: every decoded column index lies in {0, 1, 3, 4}
    have hjj' : jj < 2 := by
      have hw : BTools.widthOf 3 2 0 = 2 := by decide
      omega
    simp only [BTools.pairEmit] at ht
    split at ht
    case isFalse => simp at ht
    case isTrue hc =>
      simp only [List.mem_singleton, Prod.mk.injEq] at ht
      obtain ⟨-, -, hJ5⟩ := ht
      have hib : BTools.ibOf 3 2 0 = 0 := by decide
      rw [hib] at hJ5
      interval_cases jj <;> interval_cases j <;>
        exact absurd hJ5 (by decide)
  · -- peer rank 1: only (jj, j) = (0, 1) decodes to column 5, and there the
    -- remote point is read from the padding, so the pair is dropped
    have hjj0 : jj = 0 := by
      have hw : BTools.widthOf 3 2 1 = 1 := by decide
      omega
    subst hjj0
    by_cases hj1 : j = 1
    · subst hj1
      have hCJJ : BTools.meanSq 1 (BTools.rvalue (1 * 2) (BTools.nxmaxOf 3 2)
          (BTools.recvSlot 1 2 3 2 1 (fun _ _ _ => 1) 1) 1 0) = 0 := by
        norm_num [BTools.meanSq, BTools.sumTo, BTools.rvalue, BTools.recvSlot,
          BTools.ldataOf, BTools.slabFlat, BTools.widthOf, BTools.ibOf,
          BTools.range, BTools.nxmaxOf, List.range_succ,
          show Int.toNat 3 = 3 from rfl, show Int.toNat 2 = 2 from rfl,
          Int.toNat_zero, Int.toNat_one]
      rw [BTools.pairEmit_eq_nil 1 2 3 1 (BTools.nxmaxOf 3 2) (BTools.ibOf 3 2 r)
        (BTools.ibOf 3 2 1) (BTools.widthOf 3 2 r) (1/2)
        (BTools.ldataOf 1 2 3 2 (fun _ _ _ => 1) r)
        (BTools.recvSlot 1 2 3 2 1 (fun _ _ _ => 1) 1) ii i 0 1
        (by rw [hCJJ, mul_zero])] at ht
      exact absurd ht (List.not_mem_nil _)
    · have hj0 : j = 0 := by omega
      subst hj0
      simp only [BTools.pairEmit] at ht
      split at ht
      next hc =>
        simp only [List.mem_singleton, Prod.mk.injEq] at ht
        obtain ⟨-, -, hJ5⟩ := ht
        have hib : BTools.ibOf 3 2 1 = 2 := by decide
        rw [hib] at hJ5
        exact absurd hJ5 (by decide)
      next => simp at ht

/-- Counterexample for claim C5: on the grid `(Nz, Ny, Nx) = (1, 2, 3)` with
`E = 1`, all samples 1 and threshold 1/2, the pair `(0, 5)` (row `(x,p) =
(0,0)`, column `(x,p) = (2,1)`) is emitted by a single-rank run but by
neither rank of a two-rank run: rank 1 owns the single column `x = 2`, its
slab is laid out with stride 1 but re-read with stride `nxmax = 2`, so the
peer point `(2,1)` is read from the zero padding and its variance vanishes. -/
theorem buildB_c5_counterexample :
    ((0, 5) ∈ BTools.unionPairs 1 2 3 1 1 (1/2) (fun _ _ _ => 1)) ∧
      ¬ ((0, 5) ∈ BTools.unionPairs 1 2 3 2 1 (1/2) (fun _ _ _ => 1)) := by
  refine ⟨BTools.pair05_mem_one, BTools.pair05_not_mem_two⟩

/-- Counterexample for claim C9: in the same two-rank run as the C5
counterexample, the triple with indices `(5, 0)` is emitted (rank 1 pairs
its own point `(2,1)`, read correctly from its local slab, with rank 0's
point `(0,0)`), but no triple with the mirrored indices `(0, 5)` is emitted
anywhere, because every rank reads the peer point `(2,1)` from the
padding of the misaligned receive slot. -/
theorem buildB_c9_counterexample :
    ((5, 0) ∈ BTools.unionPairs 1 2 3 2 1 (1/2) (fun _ _ _ => 1)) ∧
      ¬ ((0, 5) ∈ BTools.unionPairs 1 2 3 2 1 (1/2) (fun _ _ _ => 1)) := by
  constructor
  · refine List.mem_map.mpr ⟨((1 : ℚ), 5, 0), ?_, rfl⟩
    refine List.mem_flatMap.mpr ⟨1, by decide, ?_⟩
    refine List.mem_flatMap.mpr ⟨0, by decide, ?_⟩
    simp only [BTools.do_thresh]
    refine List.mem_flatMap.mpr ⟨0, List.mem_range.mpr (by decide), ?_⟩
    refine List.mem_flatMap.mpr ⟨1, List.mem_range.mpr (by decide), ?_⟩
    refine List.mem_flatMap.mpr ⟨0, List.mem_range.mpr (by decide), ?_⟩
    refine List.mem_flatMap.mpr ⟨0, List.mem_range.mpr (by decide), ?_⟩
    have h : BTools.pairEmit 1 2 3 1 (BTools.nxmaxOf 3 2) (BTools.ibOf 3 2 1)
        (BTools.ibOf 3 2 0) (BTools.widthOf 3 2 1) (1/2)
        (BTools.ldataOf 1 2 3 2 (fun _ _ _ => 1) 1)
        (BTools.recvSlot 1 2 3 2 1 (fun _ _ _ => 1) 0) 0 1 0 0
        = [((1 : ℚ), 5, 0)] := by
      norm_num [BTools.pairEmit, BTools.meanSq, BTools.meanProd, BTools.sumTo,
        BTools.ccoefGE, BTools.lvalue, BTools.rvalue, BTools.decodeIdx,
        BTools.nxmaxOf, BTools.ibOf, BTools.widthOf, BTools.range,
        BTools.ldataOf, BTools.recvSlot, BTools.slabFlat, List.range_succ,
        show Int.toNat 3 = 3 from rfl, show Int.toNat 2 = 2 from rfl,
        Int.toNat_zero, Int.toNat_one]
    rw [h]
    exact List.mem_singleton.mpr rfl
  · exact BTools.pair05_not_mem_two

/-- The ensemble sum only reads the first `E` members. -/
lemma BTools.sumTo_congr (E : ℕ) (f g : ℕ → ℚ) (h : ∀ e, e < E → f e = g e) :
    BTools.sumTo E f = BTools.sumTo E g := by
  induction E with
  | zero => rfl
  | succ n ih =>
    simp only [BTools.sumTo]
    rw [ih (fun e he => h e (Nat.lt_succ_of_lt he)), h n (Nat.lt_succ_self n)]

/-- When `P` divides `Nx` evenly, every rank owns exactly `Nx/P` columns
starting at `r * (Nx/P)`. -/
lemma BTools.width_ib_dvd (nx P r : ℕ) (hdvd : nx % P = 0) :
    BTools.widthOf nx P r = nx / P ∧ BTools.ibOf nx P r = r * (nx / P) := by
  have h := BTools.range_eq nx P r
  have hmin : min ((r : ℕ) : ℤ) ((nx % P : ℕ) : ℤ) = 0 := by
    rw [hdvd]; omega
  have hq0 : (0 : ℤ) ≤ ((nx / P : ℕ) : ℤ) := Int.natCast_nonneg _
  constructor
  · rw [BTools.widthOf, h]
    simp only [hmin]
    rw [if_neg (by rw [hdvd]; omega)]
    omega
  · rw [BTools.ibOf, h]
    simp only [hmin, add_zero]
    rw [← Nat.cast_mul, Int.toNat_natCast]

/-- Folding `max` over a list of equal values. -/
lemma BTools.foldl_max_const (g : ℕ → ℕ) (w : ℕ) :
    ∀ (l : List ℕ) (acc : ℕ), (∀ x ∈ l, g x = w) →
      l.foldl (fun a x => max a (g x)) acc = if l = [] then acc else max acc w := by
  intro l
  induction l with
  | nil => intro acc _; simp
  | cons y ys ih =>
    intro acc hy
    simp only [List.foldl_cons]
    rw [ih (max acc (g y)) (fun x hx => hy x (List.mem_cons_of_mem y hx)),
      hy y (List.mem_cons_self y ys)]
    rcases ys with - | ⟨z, zs⟩
    · simp
    · simp only [if_neg (List.cons_ne_nil z zs), reduceCtorEq, if_false]
      rw [max_assoc, max_self]

/-- When `P` divides `Nx` evenly, the receive-buffer capacity `nxmax_`
equals the common slab width `Nx/P`. -/
lemma BTools.nxmax_dvd (nx P : ℕ) (hP : 0 < P) (hdvd : nx % P = 0) :
    BTools.nxmaxOf nx P = nx / P := by
  rw [BTools.nxmaxOf, BTools.foldl_max_const (BTools.widthOf nx P) (nx / P)
    (List.range P) 0 (fun x _ => (BTools.width_ib_dvd nx P x hdvd).1)]
  rw [if_neg (by simpa using Nat.pos_iff_ne_zero.mp hP)]
  exact Nat.max_eq_right (Nat.zero_le _)

/-- Reading the flattened slab at `t = e*(Nz*Ny*w) + p*w + u` with `p`
and `u` in bounds recovers the field value at `(e, ib+u, p)`. -/
lemma BTools.slabFlat_read (nzny w ib : ℕ) (F : ℕ → ℕ → ℕ → ℚ) (e p u : ℕ)
    (hp : p < nzny) (hu : u < w) :
    BTools.slabFlat nzny w ib F (e * (nzny * w) + p * w + u) = F e (ib + u) p := by
  have hw : 0 < w := Nat.pos_of_ne_zero (by omega)
  have hlt : p * w + u < nzny * w := by
    calc p * w + u < p * w + w := by omega
    _ = (p + 1) * w := by ring
    _ ≤ nzny * w := Nat.mul_le_mul_right w hp
  have ht : e * (nzny * w) + p * w + u = (nzny * w) * e + (p * w + u) := by ring
  rw [BTools.slabFlat, ht]
  have h1 : ((nzny * w) * e + (p * w + u)) / (nzny * w) = e := by
    rw [Nat.mul_add_div (by omega), Nat.div_eq_of_lt hlt, Nat.add_zero]
  have h2 : ((nzny * w) * e + (p * w + u)) % (nzny * w) = p * w + u := by
    rw [Nat.mul_add_mod, Nat.mod_eq_of_lt hlt]
  have h3 : ((nzny * w) * e + (p * w + u)) % w = u := by
    have hsplit : (nzny * w) * e + (p * w + u) = w * (nzny * e + p) + u := by ring
    rw [hsplit, Nat.mul_add_mod, Nat.mod_eq_of_lt hu]
  rw [h1, h2, h3]
  have h4 : (p * w + u) / w = p := by
    have hsplit : p * w + u = w * p + u := by ring
    rw [hsplit, Nat.mul_add_div hw, Nat.div_eq_of_lt hu, Nat.add_zero]

  rw [h4]

/-- In the evenly divisible case the kernel's local-slab read returns the
field value of the local point. -/
lemma BTools.lvalue_ldata (nz ny nx P : ℕ) (F : ℕ → ℕ → ℕ → ℚ) (r i ii e : ℕ)
    (hdvd : nx % P = 0) (hi : i < nz * ny) (hii : ii < nx / P) :
    BTools.lvalue (nz * ny) (BTools.widthOf nx P r)
        (BTools.ldataOf nz ny nx P F r) i ii e
      = F e (r * (nx / P) + ii) i := by
  obtain ⟨hw, hib⟩ := BTools.width_ib_dvd nx P r hdvd
  rw [BTools.lvalue, BTools.ldataOf, hw, hib]
  exact BTools.slabFlat_read (nz * ny) (nx / P) (r * (nx / P)) F e i ii hi hii

/-- In the evenly divisible case the kernel's receive-slot read (stride
`nxmax`) returns the field value of the peer point: the read offset lies
inside the slab-data prefix of the slot. -/
lemma BTools.rvalue_recv (nz ny nx P E : ℕ) (F : ℕ → ℕ → ℕ → ℚ) (s j jj e : ℕ)
    (hP : 0 < P) (hdvd : nx % P = 0) (hj : j < nz * ny) (hjj : jj < nx / P)
    (he : e < E) :
    BTools.rvalue (nz * ny) (BTools.nxmaxOf nx P)
        (BTools.recvSlot nz ny nx P E F s) j jj e
      = F e (s * (nx / P) + jj) j := by
  obtain ⟨hw, hib⟩ := BTools.width_ib_dvd nx P s hdvd
  have hnxm := BTools.nxmax_dvd nx P hP hdvd
  rw [BTools.rvalue, hnxm, BTools.recvSlot, hw]
  have hbound : e * (nz * ny * (nx / P)) + j * (nx / P) + jj
      < E * (nz * ny) * (nx / P) := by
    have hlt : j * (nx / P) + jj < (nz * ny) * (nx / P) := by
      calc j * (nx / P) + jj < j * (nx / P) + (nx / P) := by omega
      _ = (j + 1) * (nx / P) := by ring
      _ ≤ (nz * ny) * (nx / P) := Nat.mul_le_mul_right _ hj
    calc e * (nz * ny * (nx / P)) + j * (nx / P) + jj
        < e * (nz * ny * (nx / P)) + (nz * ny) * (nx / P) := by
          have := hlt; omega
      _ = (e + 1) * (nz * ny * (nx / P)) := by ring
      _ ≤ E * (nz * ny * (nx / P)) := Nat.mul_le_mul_right _ he
      _ = E * (nz * ny) * (nx / P) := by ring
  rw [if_pos hbound, BTools.ldataOf, hw, hib]
  exact BTools.slabFlat_read (nz * ny) (nx / P) (s * (nx / P)) F e j jj hj hjj

/-- In the evenly divisible case, the kernel's per-pair emission on gathered
data equals the global-field emission for the corresponding grid points. -/
lemma BTools.pairEmit_global (nz ny nx P E : ℕ) (thresh : ℚ)
    (F : ℕ → ℕ → ℕ → ℚ) (r s ii i jj j : ℕ) (hP : 0 < P) (hdvd : nx % P = 0)
    (hi : i < nz * ny) (hj : j < nz * ny) (hii : ii < nx / P) (hjj : jj < nx / P) :
    BTools.pairEmit nz ny nx E (BTools.nxmaxOf nx P) (BTools.ibOf nx P r)
        (BTools.ibOf nx P s) (BTools.widthOf nx P r) thresh
        (BTools.ldataOf nz ny nx P F r) (BTools.recvSlot nz ny nx P E F s)
        ii i jj j
      = if BTools.passes E thresh F (r * (nx / P) + ii) i (s * (nx / P) + jj) j
        then [(BTools.covarOf E F (r * (nx / P) + ii) i (s * (nx / P) + jj) j,
               BTools.gidx nz ny nx (r * (nx / P) + ii) i,
               BTools.gidx nz ny nx (s * (nx / P) + jj) j)]
        else [] := by
  obtain ⟨hwr, hibr⟩ := BTools.width_ib_dvd nx P r hdvd
  obtain ⟨hws, hibs⟩ := BTools.width_ib_dvd nx P s hdvd
  simp only [BTools.pairEmit]
  have hA : BTools.meanSq E (BTools.lvalue (nz * ny) (BTools.widthOf nx P r)
      (BTools.ldataOf nz ny nx P F r) i ii)
      = BTools.meanSq E (BTools.fieldAt F (r * (nx / P) + ii) i) := by
    rw [BTools.meanSq, BTools.meanSq]
    rw [BTools.sumTo_congr E _ _ (fun e _ => by
      rw [BTools.lvalue_ldata nz ny nx P F r i ii e hdvd hi hii])]
    rfl
  have hB : BTools.meanSq E (BTools.rvalue (nz * ny) (BTools.nxmaxOf nx P)
      (BTools.recvSlot nz ny nx P E F s) j jj)
      = BTools.meanSq E (BTools.fieldAt F (s * (nx / P) + jj) j) := by
    rw [BTools.meanSq, BTools.meanSq]
    rw [BTools.sumTo_congr E _ _ (fun e he => by
      rw [BTools.rvalue_recv nz ny nx P E F s j jj e hP hdvd hj hjj he])]
    rfl
  have hC : BTools.meanProd E (BTools.lvalue (nz * ny) (BTools.widthOf nx P r)
      (BTools.ldataOf nz ny nx P F r) i ii)
      (BTools.rvalue (nz * ny) (BTools.nxmaxOf nx P)
        (BTools.recvSlot nz ny nx P E F s) j jj)
      = BTools.covarOf E F (r * (nx / P) + ii) i (s * (nx / P) + jj) j := by
    rw [BTools.meanProd, BTools.covarOf, BTools.meanProd]
    rw [BTools.sumTo_congr E _ _ (fun e he => by
      rw [BTools.lvalue_ldata nz ny nx P F r i ii e hdvd hi hii,
        BTools.rvalue_recv nz ny nx P E F s j jj e hP hdvd hj hjj he])]
    rfl
  rw [hA, hB, hC, hibr, hibs]
  have hrnb : r * (nx / P) * (ny * nz) + jj * (ny * nz) + j
      = (r * (nx / P) + jj) * (ny * nz) + j := by ring
  have hsnb : s * (nx / P) * (ny * nz) + jj * (ny * nz) + j
      = (s * (nx / P) + jj) * (ny * nz) + j := by ring
  rw [hsnb]
  rfl

/-- In the evenly divisible case, a triple belongs to the union of the `P`
ranks' outputs exactly when it is the global-field emission of a pair of
grid points that passes the threshold. -/
lemma BTools.mem_unionTriples_iff (nz ny nx P E : ℕ) (thresh : ℚ)
    (F : ℕ → ℕ → ℕ → ℚ) (hP : 0 < P) (hdvd : nx % P = 0) (t : ℚ × ℕ × ℕ) :
    t ∈ BTools.unionTriples nz ny nx P E thresh F ↔
      ∃ x, x < nx ∧ ∃ p, p < nz * ny ∧ ∃ x', x' < nx ∧ ∃ p', p' < nz * ny ∧
        BTools.passes E thresh F x p x' p' = true ∧
        t = (BTools.covarOf E F x p x' p', BTools.gidx nz ny nx x p,
             BTools.gidx nz ny nx x' p') := by
  have hqmul : P * (nx / P) = nx := by
    have := Nat.div_add_mod nx P
    omega
  constructor
  · intro ht
    obtain ⟨r, hr, ht⟩ := List.mem_flatMap.mp ht
    obtain ⟨s, hs, ht⟩ := List.mem_flatMap.mp ht
    rw [List.mem_range] at hr hs
    simp only [BTools.do_thresh] at ht
    obtain ⟨ii, hii, ht⟩ := List.mem_flatMap.mp ht
    obtain ⟨i, hi, ht⟩ := List.mem_flatMap.mp ht
    obtain ⟨jj, hjj, ht⟩ := List.mem_flatMap.mp ht
    obtain ⟨j, hj, ht⟩ := List.mem_flatMap.mp ht
    rw [List.mem_range] at hii hi hjj hj
    rw [(BTools.width_ib_dvd nx P r hdvd).1] at hii
    rw [(BTools.width_ib_dvd nx P s hdvd).1] at hjj
    rw [BTools.pairEmit_global nz ny nx P E thresh F r s ii i jj j
      hP hdvd hi hj hii hjj] at ht
    split at ht
    next hpass =>
      rw [List.mem_singleton] at ht
      have hxr : r * (nx / P) + ii < nx := by
        have h1 : (r + 1) * (nx / P) ≤ P * (nx / P) :=
          Nat.mul_le_mul_right _ hr
        have h2 : (r + 1) * (nx / P) = r * (nx / P) + nx / P := by ring
        omega
      have hxs : s * (nx / P) + jj < nx := by
        have h1 : (s + 1) * (nx / P) ≤ P * (nx / P) :=
          Nat.mul_le_mul_right _ hs
        have h2 : (s + 1) * (nx / P) = s * (nx / P) + nx / P := by ring
        omega
      exact ⟨r * (nx / P) + ii, hxr, i, hi, s * (nx / P) + jj, hxs, j, hj,
        hpass, ht⟩
    next => exact absurd ht (List.not_mem_nil _)
  · rintro ⟨x, hx, p, hp, x', hx', p', hp', hpass, rfl⟩
    have hq0 : 0 < nx / P := by
      rcases Nat.eq_zero_or_pos (nx / P) with h0 | h0
      · rw [h0, Nat.mul_zero] at hqmul; omega
      · exact h0
    have hxdm := Nat.div_add_mod x (nx / P)
    have hxdm' := Nat.div_add_mod x' (nx / P)
    refine List.mem_flatMap.mpr ⟨x / (nx / P), List.mem_range.mpr ?_, ?_⟩
    · rw [Nat.div_lt_iff_lt_mul hq0]
      calc x < nx := hx
      _ = P * (nx / P) := hqmul.symm
      _ = P * (nx / P) := rfl
    · refine List.mem_flatMap.mpr ⟨x' / (nx / P), List.mem_range.mpr ?_, ?_⟩
      · rw [Nat.div_lt_iff_lt_mul hq0]
        calc x' < nx := hx'
        _ = P * (nx / P) := hqmul.symm
        _ = P * (nx / P) := rfl
      · simp only [BTools.do_thresh]
        refine List.mem_flatMap.mpr ⟨x % (nx / P), List.mem_range.mpr ?_, ?_⟩
        · rw [(BTools.width_ib_dvd nx P (x / (nx / P)) hdvd).1]
          exact Nat.mod_lt x hq0
        refine List.mem_flatMap.mpr ⟨p, List.mem_range.mpr hp, ?_⟩
        refine List.mem_flatMap.mpr ⟨x' % (nx / P), List.mem_range.mpr ?_, ?_⟩
        · rw [(BTools.width_ib_dvd nx P (x' / (nx / P)) hdvd).1]
          exact Nat.mod_lt x' hq0
        refine List.mem_flatMap.mpr ⟨p', List.mem_range.mpr hp', ?_⟩
        rw [BTools.pairEmit_global nz ny nx P E thresh F
          (x / (nx / P)) (x' / (nx / P)) (x % (nx / P)) p (x' % (nx / P)) p'
          hP hdvd hp hp' (Nat.mod_lt x hq0) (Nat.mod_lt x' hq0)]
        have hxeq : x / (nx / P) * (nx / P) + x % (nx / P) = x := by
          have h := Nat.div_add_mod x (nx / P)
          have h2 : nx / P * (x / (nx / P)) = x / (nx / P) * (nx / P) :=
            Nat.mul_comm _ _
          omega
        have hxeq' : x' / (nx / P) * (nx / P) + x' % (nx / P) = x' := by
          have h := Nat.div_add_mod x' (nx / P)
          have h2 : nx / P * (x' / (nx / P)) = x' / (nx / P) * (nx / P) :=
            Nat.mul_comm _ _
          omega
        rw [hxeq, hxeq', if_pos hpass]
        exact List.mem_singleton.mpr rfl

/-- The ensemble covariance is symmetric in the two grid points. -/
lemma BTools.covarOf_symm (E : ℕ) (F : ℕ → ℕ → ℕ → ℚ) (x p x' p' : ℕ) :
    BTools.covarOf E F x p x' p' = BTools.covarOf E F x' p' x p := by
  rw [BTools.covarOf, BTools.covarOf, BTools.meanProd, BTools.meanProd]
  rw [BTools.sumTo_congr E _ _ (fun e _ => mul_comm _ _)]

/-- The retention test is invariant under swapping the two variances. -/
lemma BTools.ccoefGE_swap (covar CII CJJ thresh : ℚ) :
    BTools.ccoefGE covar CII CJJ thresh = BTools.ccoefGE covar CJJ CII thresh := by
  rw [BTools.ccoefGE, BTools.ccoefGE, mul_comm CJJ CII]

/-- The retention test is symmetric in the two grid points. -/
lemma BTools.passes_symm (E : ℕ) (thresh : ℚ) (F : ℕ → ℕ → ℕ → ℚ)
    (x p x' p' : ℕ) :
    BTools.passes E thresh F x p x' p' = BTools.passes E thresh F x' p' x p := by
  rw [BTools.passes, BTools.passes, BTools.covarOf_symm, BTools.ccoefGE_swap]

/-- Claim C9, amended: when `P` divides `Nx` evenly (in particular for the
single-rank run), the union of triples across ranks is symmetric — for every
emitted `(v, I, J)` the mirrored `(v, J, I)` is emitted on some rank — and
the union covers every ordered pair of grid points that passes the
threshold, diagonal included.  For `Nx` not divisible by `P` the
misaligned receive-slot reshape breaks this (see the counterexample). -/
theorem buildB_c9_amended (nz ny nx P E : ℕ) (thresh : ℚ)
    (F : ℕ → ℕ → ℕ → ℚ) (hP : 0 < P) (hdvd : nx % P = 0) :
    (∀ v I J, (v, I, J) ∈ BTools.unionTriples nz ny nx P E thresh F →
        (v, J, I) ∈ BTools.unionTriples nz ny nx P E thresh F)
    ∧ (∀ x p x' p', x < nx → p < nz * ny → x' < nx → p' < nz * ny →
        BTools.passes E thresh F x p x' p' = true →
        (BTools.covarOf E F x p x' p', BTools.gidx nz ny nx x p,
          BTools.gidx nz ny nx x' p')
            ∈ BTools.unionTriples nz ny nx P E thresh F) := by
  constructor
  · intro v I J hm
    rw [BTools.mem_unionTriples_iff nz ny nx P E thresh F hP hdvd] at hm ⊢
    obtain ⟨x, hx, p, hp, x', hx', p', hp', hpass, heq⟩ := hm
    rw [Prod.ext_iff] at heq
    obtain ⟨hv, hIJ⟩ := heq
    rw [Prod.ext_iff] at hIJ
    obtain ⟨hI, hJ⟩ := hIJ
    refine ⟨x', hx', p', hp', x, hx, p, hp, ?_, ?_⟩
    · rw [← BTools.passes_symm]; exact hpass
    · simp only at hv hI hJ
      rw [hv, hI, hJ, BTools.covarOf_symm]
  · intro x p x' p' hx hp hx' hp' hpass
    rw [BTools.mem_unionTriples_iff nz ny nx P E thresh F hP hdvd]
    exact ⟨x, hx, p, hp, x', hx', p', hp', hpass, rfl⟩

/-- Witness for the amended claim C9: on the grid `(1,1,2)` split over two
ranks with all samples 1 and threshold 1/2, the pair of distinct points
`x = 0`, `x' = 1` passes, so its triple is in the union. -/
theorem buildB_c9_amended_witness :
    (BTools.covarOf 1 (fun _ _ _ => 1) 0 0 1 0, BTools.gidx 1 1 2 0 0,
      BTools.gidx 1 1 2 1 0) ∈ BTools.unionTriples 1 1 2 2 1 (1/2)
        (fun _ _ _ => 1) := by
  refine (buildB_c9_amended 1 1 2 2 1 (1/2) (fun _ _ _ => 1)
    (by decide) (by decide)).2 0 0 1 0 (by decide) (by decide) (by decide)
    (by decide) ?_
  norm_num [BTools.passes, BTools.ccoefGE, BTools.covarOf, BTools.meanProd,
    BTools.meanSq, BTools.sumTo, BTools.fieldAt]

/-- Upper bounds of a `max` fold: the fold is bounded by `b` exactly when the
seed and every element are. -/
lemma Bmata.foldl_max_le_iff (l : List ℤ) :
    ∀ (acc b : ℤ), l.foldl max acc ≤ b ↔ acc ≤ b ∧ ∀ x ∈ l, x ≤ b := by
  induction l with
  | nil => intro acc b; simp
  | cons y ys ih =>
    intro acc b
    simp only [List.foldl_cons, List.mem_cons]
    rw [ih (max acc y) b]
    constructor
    · rintro ⟨h1, h2⟩
      rw [max_le_iff] at h1
      exact ⟨h1.1, fun x hx => hx.elim (fun h => h ▸ h1.2) (h2 x)⟩
    · rintro ⟨h1, h2⟩
      exact ⟨max_le_iff.mpr ⟨h1, h2 y (Or.inl rfl)⟩, fun x hx => h2 x (Or.inr hx)⟩

/-- Lower bounds of a `min` fold: the fold is at least `b` exactly when the
seed and every element are. -/
lemma Bmata.le_foldl_min_iff (l : List ℤ) :
    ∀ (acc b : ℤ), b ≤ l.foldl min acc ↔ b ≤ acc ∧ ∀ x ∈ l, b ≤ x := by
  induction l with
  | nil => intro acc b; simp
  | cons y ys ih =>
    intro acc b
    simp only [List.foldl_cons, List.mem_cons]
    rw [ih (min acc y) b]
    constructor
    · rintro ⟨h1, h2⟩
      rw [le_min_iff] at h1
      exact ⟨h1.1, fun x hx => hx.elim (fun h => h ▸ h1.2) (h2 x)⟩
    · rintro ⟨h1, h2⟩
      exact ⟨le_min_iff.mpr ⟨h1, h2 y (Or.inl rfl)⟩, fun x hx => h2 x (Or.inr hx)⟩

/-- Bound characterisation of one rank's per-row maximum. -/
lemma Bmata.JmaxLoc_le_iff (ps : List (ℤ × ℤ)) (g b : ℤ) :
    Bmata.JmaxLoc ps g ≤ b ↔
      (-1 : ℤ) ≤ b ∧ ∀ pr ∈ ps, pr.1 = g → pr.2 ≤ b := by
  rw [Bmata.JmaxLoc, Bmata.foldl_max_le_iff]
  constructor
  · rintro ⟨h1, h2⟩
    refine ⟨h1, fun pr hpr hg => h2 pr.2 ?_⟩
    exact List.mem_map.mpr ⟨pr, List.mem_filter.mpr ⟨hpr, by simp [hg]⟩, rfl⟩
  · rintro ⟨h1, h2⟩
    refine ⟨h1, fun J hJ => ?_⟩
    obtain ⟨pr, hpr, rfl⟩ := List.mem_map.mp hJ
    obtain ⟨hps, hpg⟩ := List.mem_filter.mp hpr
    exact h2 pr hps (by simpa using hpg)

/-- Bound characterisation of one rank's per-row minimum. -/
lemma Bmata.le_JminLoc_iff (G : ℕ) (ps : List (ℤ × ℤ)) (g b : ℤ) :
    b ≤ Bmata.JminLoc G ps g ↔
      b ≤ (G : ℤ) + 10 ∧ ∀ pr ∈ ps, pr.1 = g → b ≤ pr.2 := by
  rw [Bmata.JminLoc, Bmata.le_foldl_min_iff]
  constructor
  · rintro ⟨h1, h2⟩
    refine ⟨h1, fun pr hpr hg => h2 pr.2 ?_⟩
    exact List.mem_map.mpr ⟨pr, List.mem_filter.mpr ⟨hpr, by simp [hg]⟩, rfl⟩
  · rintro ⟨h1, h2⟩
    refine ⟨h1, fun J hJ => ?_⟩
    obtain ⟨pr, hpr, rfl⟩ := List.mem_map.mp hJ
    obtain ⟨hps, hpg⟩ := List.mem_filter.mp hpr
    exact h2 pr hps (by simpa using hpg)

/-- Bound characterisation of the reduced per-row maximum. -/
lemma Bmata.gJmax_le_iff (ranks : List (List (ℤ × ℤ))) (g b : ℤ) :
    Bmata.gJmax ranks g ≤ b ↔
      (-1 : ℤ) ≤ b ∧ ∀ ps ∈ ranks, ∀ pr ∈ ps, pr.1 = g → pr.2 ≤ b := by
  rw [Bmata.gJmax, Bmata.foldl_max_le_iff]
  constructor
  · rintro ⟨h1, h2⟩
    exact ⟨h1, fun ps hps => ((Bmata.JmaxLoc_le_iff ps g b).mp
      (h2 _ (List.mem_map.mpr ⟨ps, hps, rfl⟩))).2⟩
  · rintro ⟨h1, h2⟩
    refine ⟨h1, fun v hv => ?_⟩
    obtain ⟨ps, hps, rfl⟩ := List.mem_map.mp hv
    exact (Bmata.JmaxLoc_le_iff ps g b).mpr ⟨h1, h2 ps hps⟩

/-- Bound characterisation of the reduced per-row minimum. -/
lemma Bmata.le_gJmin_iff (G : ℕ) (ranks : List (List (ℤ × ℤ))) (g b : ℤ) :
    b ≤ Bmata.gJmin G ranks g ↔
      b ≤ (G : ℤ) + 10 ∧ ∀ ps ∈ ranks, ∀ pr ∈ ps, pr.1 = g → b ≤ pr.2 := by
  rw [Bmata.gJmin, Bmata.le_foldl_min_iff]
  constructor
  · rintro ⟨h1, h2⟩
    exact ⟨h1, fun ps hps => ((Bmata.le_JminLoc_iff G ps g b).mp
      (h2 _ (List.mem_map.mpr ⟨ps, hps, rfl⟩))).2⟩
  · rintro ⟨h1, h2⟩
    refine ⟨h1, fun v hv => ?_⟩
    obtain ⟨ps, hps, rfl⟩ := List.mem_map.mp hv
    exact (Bmata.le_JminLoc_iff G ps g b).mpr ⟨h1, h2 ps hps⟩

/-- Two rank decompositions with the same overall set of (row, column)
pairs reduce to the same per-row maximum. -/
lemma Bmata.gJmax_congr (ranks1 ranks2 : List (List (ℤ × ℤ))) (g : ℤ)
    (h : ∀ pr : ℤ × ℤ, (∃ ps ∈ ranks1, pr ∈ ps) ↔ (∃ ps ∈ ranks2, pr ∈ ps)) :
    Bmata.gJmax ranks1 g = Bmata.gJmax ranks2 g := by
  have hb2 := (Bmata.gJmax_le_iff ranks2 g (Bmata.gJmax ranks2 g)).mp le_rfl
  have hb1 := (Bmata.gJmax_le_iff ranks1 g (Bmata.gJmax ranks1 g)).mp le_rfl
  apply le_antisymm
  · rw [Bmata.gJmax_le_iff]
    refine ⟨hb2.1, fun ps hps pr hpr hg => ?_⟩
    obtain ⟨ps', hps', hpr'⟩ := (h pr).mp ⟨ps, hps, hpr⟩
    exact hb2.2 ps' hps' pr hpr' hg
  · rw [Bmata.gJmax_le_iff]
    refine ⟨hb1.1, fun ps hps pr hpr hg => ?_⟩
    obtain ⟨ps', hps', hpr'⟩ := (h pr).mpr ⟨ps, hps, hpr⟩
    exact hb1.2 ps' hps' pr hpr' hg

/-- Two rank decompositions with the same overall set of (row, column)
pairs reduce to the same per-row minimum. -/
lemma Bmata.gJmin_congr (G : ℕ) (ranks1 ranks2 : List (List (ℤ × ℤ))) (g : ℤ)
    (h : ∀ pr : ℤ × ℤ, (∃ ps ∈ ranks1, pr ∈ ps) ↔ (∃ ps ∈ ranks2, pr ∈ ps)) :
    Bmata.gJmin G ranks1 g = Bmata.gJmin G ranks2 g := by
  have hb2 := (Bmata.le_gJmin_iff G ranks2 g (Bmata.gJmin G ranks2 g)).mp le_rfl
  have hb1 := (Bmata.le_gJmin_iff G ranks1 g (Bmata.gJmin G ranks1 g)).mp le_rfl
  apply le_antisymm
  · rw [Bmata.le_gJmin_iff]
    refine ⟨hb1.1, fun ps hps pr hpr hg => ?_⟩
    obtain ⟨ps', hps', hpr'⟩ := (h pr).mpr ⟨ps, hps, hpr⟩
    exact hb1.2 ps' hps' pr hpr' hg
  · rw [Bmata.le_gJmin_iff]
    refine ⟨hb2.1, fun ps hps pr hpr hg => ?_⟩
    obtain ⟨ps', hps', hpr'⟩ := (h pr).mp ⟨ps, hps, hpr⟩
    exact hb2.2 ps' hps' pr hpr' hg

/-- Claim C5, amended: when `P` divides `Nx` evenly, the union across the
`P` ranks of the emitted (row, column) pairs equals the single-rank set, and
the reduced per-row maxima and minima — hence the width vector and every
statistic derived from it — are unchanged.  For `Nx` not divisible by `P`
the misaligned receive-slot reshape loses pairs (see the counterexample). -/
theorem buildB_c5_amended (nz ny nx P E : ℕ) (thresh : ℚ)
    (F : ℕ → ℕ → ℕ → ℚ) (hP : 0 < P) (hdvd : nx % P = 0) :
    (∀ pr : ℕ × ℕ, pr ∈ BTools.unionPairs nz ny nx P E thresh F ↔
        pr ∈ BTools.unionPairs nz ny nx 1 E thresh F)
    ∧ ∀ g : ℤ, Bmata.gJmax (BTools.ranksZ nz ny nx P E thresh F) g
          = Bmata.gJmax (BTools.ranksZ nz ny nx 1 E thresh F) g
        ∧ Bmata.gJmin (nz * ny * nx) (BTools.ranksZ nz ny nx P E thresh F) g
          = Bmata.gJmin (nz * ny * nx) (BTools.ranksZ nz ny nx 1 E thresh F) g := by
  have htrip : ∀ t, t ∈ BTools.unionTriples nz ny nx P E thresh F ↔
      t ∈ BTools.unionTriples nz ny nx 1 E thresh F := by
    intro t
    rw [BTools.mem_unionTriples_iff nz ny nx P E thresh F hP hdvd,
      BTools.mem_unionTriples_iff nz ny nx 1 E thresh F Nat.one_pos
        (Nat.mod_one nx)]
  have hside : ∀ (Q : ℕ) (pr : ℤ × ℤ),
      (∃ ps ∈ BTools.ranksZ nz ny nx Q E thresh F, pr ∈ ps) ↔
        ∃ t ∈ BTools.unionTriples nz ny nx Q E thresh F,
          ((t.2.1 : ℤ), (t.2.2 : ℤ)) = pr := by
    intro Q pr
    constructor
    · rintro ⟨ps, hps, hpr⟩
      obtain ⟨r, hr, rfl⟩ := List.mem_map.mp hps
      obtain ⟨t, ht, rfl⟩ := List.mem_map.mp hpr
      exact ⟨t, List.mem_flatMap.mpr ⟨r, hr, ht⟩, rfl⟩
    · rintro ⟨t, ht, rfl⟩
      obtain ⟨r, hr, ht⟩ := List.mem_flatMap.mp ht
      exact ⟨BTools.rankPairsZ nz ny nx Q E thresh F r,
        List.mem_map.mpr ⟨r, hr, rfl⟩, List.mem_map.mpr ⟨t, ht, rfl⟩⟩
  have hz : ∀ pr : ℤ × ℤ,
      (∃ ps ∈ BTools.ranksZ nz ny nx P E thresh F, pr ∈ ps) ↔
        ∃ ps ∈ BTools.ranksZ nz ny nx 1 E thresh F, pr ∈ ps := by
    intro pr
    rw [hside P pr, hside 1 pr]
    constructor
    · rintro ⟨t, ht, rfl⟩; exact ⟨t, (htrip t).mp ht, rfl⟩
    · rintro ⟨t, ht, rfl⟩; exact ⟨t, (htrip t).mpr ht, rfl⟩
  refine ⟨?_, fun g => ⟨Bmata.gJmax_congr _ _ g hz,
    Bmata.gJmin_congr (nz * ny * nx) _ _ g hz⟩⟩
  intro pr
  simp only [BTools.unionPairs, List.mem_map]
  constructor
  · rintro ⟨t, ht, rfl⟩; exact ⟨t, (htrip t).mp ht, rfl⟩
  · rintro ⟨t, ht, rfl⟩; exact ⟨t, (htrip t).mpr ht, rfl⟩

/-- Witness for the amended claim C5 on the grid `(1, 1, 2)` split over two
ranks with all samples 1 and threshold 1/2: the pair `(0, 1)` is in both
unions. -/
theorem buildB_c5_amended_witness :
    ((0, 1) ∈ BTools.unionPairs 1 1 2 2 1 (1/2) (fun _ _ _ => 1) ↔
      (0, 1) ∈ BTools.unionPairs 1 1 2 1 1 (1/2) (fun _ _ _ => 1)) :=
  (buildB_c5_amended 1 1 2 2 1 (1/2) (fun _ _ _ => 1)
    (by decide) (by decide)).1 (0, 1)

/-- Filtered-and-mapped list sums as indexed sums over the row positions. -/
lemma Bmata.filter_map_sum_indexed (p : ℤ → Bool) (f : ℤ → ℚ) :
    ∀ w : List ℤ, ((w.filter p).map f).sum
      = ∑ r ∈ Finset.range w.length, if p (w.getD r 0) then f (w.getD r 0) else 0 := by
  intro w
  induction w with
  | nil => simp
  | cons y ys ih =>
    rw [List.length_cons, Finset.sum_range_succ']
    simp only [List.getD_cons_succ, List.getD_cons_zero]
    rw [← ih]
    by_cases hy : p y
    · simp [List.filter_cons, hy, add_comm]
    · simp [List.filter_cons, hy]

/-- A constant-one map sums to the length. -/
lemma Bmata.sum_map_one (l : List ℤ) :
    (l.map (fun _ => (1 : ℚ))).sum = (l.length : ℚ) := by
  induction l with
  | nil => simp
  | cons y ys ih => simp [ih, add_comm]

/-- Casting an integer list sum to the rationals elementwise. -/
lemma Bmata.sum_cast (l : List ℤ) :
    ((l.sum : ℤ) : ℚ) = (l.map (fun x : ℤ => (x : ℚ))).sum := by
  rw [Int.cast_list_sum]

/-- The filtered length as an indexed rational count. -/
lemma Bmata.filter_length_indexed (p : ℤ → Bool) (w : List ℤ) :
    (((w.filter p).length : ℕ) : ℚ)
      = ∑ r ∈ Finset.range w.length, if p (w.getD r 0) then (1 : ℚ) else 0 := by
  rw [← Bmata.sum_map_one (w.filter p), Bmata.filter_map_sum_indexed]

/-- The variance of the kept widths is nonnegative. -/
lemma Bmata.stdSq_nonneg (w : List ℤ) : 0 ≤ Bmata.stdSq w := by
  rw [Bmata.stdSq]
  refine div_nonneg (List.sum_nonneg ?_) (Nat.cast_nonneg _)
  intro x hx
  obtain ⟨y, -, rfl⟩ := List.mem_map.mp hx
  positivity

/-- The trimming comparison agrees with the real-number comparison
`x < a + 2*sqrt s` whenever `s ≥ 0`. -/
lemma Bmata.ltTrim_iff_real (x a s : ℚ) (hs : 0 ≤ s) :
    Bmata.ltTrim x a s = true ↔
      ((x : ℚ) : ℝ) < ((a : ℚ) : ℝ) + 2 * Real.sqrt ((s : ℚ) : ℝ) := by
  have hsR : (0 : ℝ) ≤ ((s : ℚ) : ℝ) := by exact_mod_cast hs
  rw [Bmata.ltTrim, Bool.or_eq_true, decide_eq_true_eq, decide_eq_true_eq]
  constructor
  · rintro (h | h)
    · have hR : ((x : ℚ) : ℝ) < ((a : ℚ) : ℝ) := by exact_mod_cast h
      have : (0 : ℝ) ≤ 2 * Real.sqrt ((s : ℚ) : ℝ) := by positivity
      linarith
    · rcases lt_or_le x a with h1 | h1
      · have hR : ((x : ℚ) : ℝ) < ((a : ℚ) : ℝ) := by exact_mod_cast h1
        have : (0 : ℝ) ≤ 2 * Real.sqrt ((s : ℚ) : ℝ) := by positivity
        linarith
      · have hxa : (0 : ℝ) ≤ ((x : ℚ) : ℝ) - ((a : ℚ) : ℝ) := by
          have : ((a : ℚ) : ℝ) ≤ ((x : ℚ) : ℝ) := by exact_mod_cast h1
          linarith
        have hR : (((x : ℚ) : ℝ) - ((a : ℚ) : ℝ)) ^ 2 < 4 * ((s : ℚ) : ℝ) := by
          exact_mod_cast h
        have hlt : ((x : ℚ) : ℝ) - ((a : ℚ) : ℝ)
            < Real.sqrt (4 * ((s : ℚ) : ℝ)) := by
          rw [Real.lt_sqrt hxa]
          exact hR
        have hsq4 : Real.sqrt (4 * ((s : ℚ) : ℝ))
            = 2 * Real.sqrt ((s : ℚ) : ℝ) := by
          rw [Real.sqrt_mul (by norm_num : (0:ℝ) ≤ 4),
            show (4 : ℝ) = 2 ^ 2 by norm_num, Real.sqrt_sq (by norm_num)]
        rw [hsq4] at hlt
        linarith
  · intro h
    rcases lt_or_le x a with h1 | h1
    · exact Or.inl h1
    · right
      have hxa : (0 : ℝ) ≤ ((x : ℚ) : ℝ) - ((a : ℚ) : ℝ) := by
        have : ((a : ℚ) : ℝ) ≤ ((x : ℚ) : ℝ) := by exact_mod_cast h1
        linarith
      have h2 : ((x : ℚ) : ℝ) - ((a : ℚ) : ℝ) < 2 * Real.sqrt ((s : ℚ) : ℝ) := by
        linarith
      have h3 : (((x : ℚ) : ℝ) - ((a : ℚ) : ℝ)) ^ 2
          < (2 * Real.sqrt ((s : ℚ) : ℝ)) ^ 2 := by
        have hb : (0 : ℝ) ≤ 2 * Real.sqrt ((s : ℚ) : ℝ) := by positivity
        exact pow_lt_pow_left h2 hxa (by norm_num)
      rw [mul_pow, Real.sq_sqrt hsR] at h3
      have h4 : (((x : ℚ) : ℝ) - ((a : ℚ) : ℝ)) ^ 2 < 4 * ((s : ℚ) : ℝ) := by
        nlinarith [h3]
      exact_mod_cast h4

/-- Behaviour of the argmax scan: it either keeps the running best (and then
every scanned element is bounded by it) or returns the offset of the first
strict maximum of the scanned tail. -/
lemma Bmata.argmaxAux_spec :
    ∀ (l : List ℤ) (bv : ℤ) (idx bi : ℕ),
      (Bmata.argmaxAux l bv idx bi = bi ∧ ∀ k, k < l.length → l.getD k 0 ≤ bv)
      ∨ (∃ m, m < l.length ∧ Bmata.argmaxAux l bv idx bi = idx + m ∧
          bv < l.getD m 0 ∧ (∀ k, k < l.length → l.getD k 0 ≤ l.getD m 0) ∧
          ∀ k, k < m → l.getD k 0 < l.getD m 0) := by
  intro l
  induction l with
  | nil => intro bv idx bi; left; exact ⟨rfl, fun k hk => absurd hk (by simp)⟩
  | cons y ys ih =>
    intro bv idx bi
    rw [Bmata.argmaxAux]
    by_cases hy : bv < y
    · rw [if_pos hy]
      rcases ih y (idx + 1) idx with ⟨hres, hbnd⟩ | ⟨m, hm, hres, hgt, hmax, hfst⟩
      · right
        refine ⟨0, by simp, by rw [hres, Nat.add_zero], ?_, ?_, ?_⟩
        · simpa using hy
        · intro k hk
          match k with
          | 0 => simp
          | k + 1 =>
            simp only [List.getD_cons_succ, List.getD_cons_zero]
            exact hbnd k (by simpa using hk)
        · intro k hk; omega
      · right
        refine ⟨m + 1, by simpa using hm, by rw [hres]; ring, ?_, ?_, ?_⟩
        · simp only [List.getD_cons_succ]
          exact lt_trans hy hgt
        · intro k hk
          match k with
          | 0 =>
            simp only [List.getD_cons_succ, List.getD_cons_zero]
            exact le_of_lt hgt
          | k + 1 =>
            simp only [List.getD_cons_succ]
            exact hmax k (by simpa using hk)
        · intro k hk
          match k with
          | 0 =>
            simp only [List.getD_cons_succ, List.getD_cons_zero]
            exact hgt
          | k + 1 =>
            simp only [List.getD_cons_succ]
            exact hfst k (by omega)
    · rw [if_neg hy]
      rcases ih bv (idx + 1) bi with ⟨hres, hbnd⟩ | ⟨m, hm, hres, hgt, hmax, hfst⟩
      · left
        refine ⟨hres, fun k hk => ?_⟩
        match k with
        | 0 => simpa using le_of_not_lt hy
        | k + 1 =>
          simp only [List.getD_cons_succ]
          exact hbnd k (by simpa using hk)
      · right
        refine ⟨m + 1, by simpa using hm, by rw [hres]; ring, ?_, ?_, ?_⟩
        · simp only [List.getD_cons_succ]
          exact hgt
        · intro k hk
          match k with
          | 0 =>
            simp only [List.getD_cons_succ, List.getD_cons_zero]
            exact le_trans (le_of_not_lt hy) (le_of_lt hgt)
          | k + 1 =>
            simp only [List.getD_cons_succ]
            exact hmax k (by simpa using hk)
        · intro k hk
          match k with
          | 0 =>
            simp only [List.getD_cons_succ, List.getD_cons_zero]
            exact lt_of_le_of_lt (le_of_not_lt hy) hgt
          | k + 1 =>
            simp only [List.getD_cons_succ]
            exact hfst k (by omega)

/-- `npArgmax` returns the smallest index attaining the maximum. -/
lemma Bmata.npArgmax_spec (w : List ℤ) (hne : w ≠ []) :
    Bmata.npArgmax w < w.length
    ∧ (∀ m, m < w.length → w.getD m 0 ≤ w.getD (Bmata.npArgmax w) 0)
    ∧ ∀ m, m < Bmata.npArgmax w → w.getD m 0 < w.getD (Bmata.npArgmax w) 0 := by
  match w with
  | [] => exact absurd rfl hne
  | x :: xs =>
    rw [Bmata.npArgmax]
    rcases Bmata.argmaxAux_spec xs x 1 0 with ⟨hres, hbnd⟩ |
      ⟨m, hm, hres, hgt, hmax, hfst⟩
    · rw [hres]
      refine ⟨by simp, fun m hmlt => ?_, fun m hmlt => absurd hmlt (by omega)⟩
      match m with
      | 0 => simp
      | m + 1 =>
        simp only [List.getD_cons_succ, List.getD_cons_zero]
        exact hbnd m (by simpa using hmlt)
    · rw [hres]
      have hidx : 1 + m = m + 1 := by ring
      rw [hidx]
      refine ⟨by simpa using hm, fun k hk => ?_, fun k hk => ?_⟩
      · match k with
        | 0 =>
          simp only [List.getD_cons_succ, List.getD_cons_zero]
          exact le_of_lt hgt
        | k + 1 =>
          simp only [List.getD_cons_succ]
          exact hmax k (by simpa using hk)
      · match k with
        | 0 =>
          simp only [List.getD_cons_succ, List.getD_cons_zero]
          exact hgt
        | k + 1 =>
          simp only [List.getD_cons_succ]
          exact hfst k (by omega)

open Classical in
/-- Claim C7: the summary statistics of bmata.py lines 156-164 are computed
only over rows with positive width: the average divides the sum of the kept
widths by their count; the variance under the square root divides by the
same count (population form, not count - 1); the trimmed average is the mean
of exactly those kept widths strictly below `avg + 2*std` (one-sided upper
trim, with `std` the real square root of the variance); and `np.argmax`
reports the smallest row index achieving the maximum on ties. -/
theorem bmata_c7 (w : List ℤ) (hne : w ≠ []) :
    Bmata.avgWidth w = (∑ r ∈ Finset.range w.length,
        if 0 < w.getD r 0 then ((w.getD r 0 : ℤ) : ℚ) else 0)
      / (∑ r ∈ Finset.range w.length, if 0 < w.getD r 0 then (1 : ℚ) else 0)
    ∧ Bmata.stdSq w = (∑ r ∈ Finset.range w.length,
        if 0 < w.getD r 0
        then (((w.getD r 0 : ℤ) : ℚ) - Bmata.avgWidth w) ^ 2 else 0)
      / (∑ r ∈ Finset.range w.length, if 0 < w.getD r 0 then (1 : ℚ) else 0)
    ∧ Bmata.avgWidth1 w = (∑ r ∈ Finset.range w.length,
        if 0 < w.getD r 0 ∧ (((w.getD r 0 : ℤ) : ℚ) : ℝ)
            < ((Bmata.avgWidth w : ℚ) : ℝ) + 2 * Real.sqrt ((Bmata.stdSq w : ℚ) : ℝ)
        then ((w.getD r 0 : ℤ) : ℚ) else 0)
      / (∑ r ∈ Finset.range w.length,
        if 0 < w.getD r 0 ∧ (((w.getD r 0 : ℤ) : ℚ) : ℝ)
            < ((Bmata.avgWidth w : ℚ) : ℝ) + 2 * Real.sqrt ((Bmata.stdSq w : ℚ) : ℝ)
        then (1 : ℚ) else 0)
    ∧ (Bmata.npArgmax w < w.length
        ∧ (∀ m, m < w.length → w.getD m 0 ≤ w.getD (Bmata.npArgmax w) 0)
        ∧ ∀ m, m < Bmata.npArgmax w → w.getD m 0 < w.getD (Bmata.npArgmax w) 0) := by
  have hcount : (((Bmata.Wkeep w).length : ℕ) : ℚ)
      = ∑ r ∈ Finset.range w.length, if 0 < w.getD r 0 then (1 : ℚ) else 0 := by
    rw [Bmata.Wkeep, Bmata.filter_length_indexed]
    exact Finset.sum_congr rfl fun r _ => if_congr (by simp) rfl rfl
  refine ⟨?_, ?_, ?_, Bmata.npArgmax_spec w hne⟩
  · rw [Bmata.avgWidth, hcount, Bmata.sum_cast, Bmata.Wkeep,
      Bmata.filter_map_sum_indexed]
    congr 1
    exact Finset.sum_congr rfl fun r _ => if_congr (by simp) rfl rfl
  · rw [Bmata.stdSq, hcount]
    congr 1
    rw [Bmata.Wkeep, Bmata.filter_map_sum_indexed]
    exact Finset.sum_congr rfl fun r _ => if_congr (by simp) rfl rfl
  · have hW2 : Bmata.Wkeep2 w = w.filter (fun x : ℤ =>
        (decide (0 < x)) && Bmata.ltTrim (x : ℚ) (Bmata.avgWidth w) (Bmata.stdSq w)) := by
      rw [Bmata.Wkeep2, Bmata.Wkeep, List.filter_filter]
      exact List.filter_congr (fun a _ => Bool.and_comm _ _)
    have hiff : ∀ r : ℕ,
        (((decide (0 < w.getD r 0)) && Bmata.ltTrim ((w.getD r 0 : ℤ) : ℚ)
          (Bmata.avgWidth w) (Bmata.stdSq w)) = true)
        ↔ (0 < w.getD r 0 ∧ (((w.getD r 0 : ℤ) : ℚ) : ℝ)
            < ((Bmata.avgWidth w : ℚ) : ℝ)
              + 2 * Real.sqrt ((Bmata.stdSq w : ℚ) : ℝ)) := by
      intro r
      rw [Bool.and_eq_true, decide_eq_true_eq,
        Bmata.ltTrim_iff_real _ _ _ (Bmata.stdSq_nonneg w)]
    rw [Bmata.avgWidth1, hW2, Bmata.sum_cast, Bmata.filter_map_sum_indexed,
      Bmata.filter_length_indexed]
    congr 1
    · exact Finset.sum_congr rfl fun r _ => if_congr (hiff r) rfl rfl
    · exact Finset.sum_congr rfl fun r _ => if_congr (hiff r) rfl rfl

/-- Witness for claim C7 on the width vector `[2, -1, 2]`: the argmax is a
valid index and dominates the entry at position 1. -/
theorem bmata_c7_witness :
    Bmata.npArgmax [2, -1, 2] < ([2, -1, 2] : List ℤ).length
      ∧ ([2, -1, 2] : List ℤ).getD 1 0
        ≤ ([2, -1, 2] : List ℤ).getD (Bmata.npArgmax [2, -1, 2]) 0 := by
  obtain ⟨h1, h2, h3⟩ := (bmata_c7 [2, -1, 2] (by decide)).2.2.2
  exact ⟨h1, h2 1 (by decide)⟩

/-- Claim C8: after the per-row MIN/MAX all-reduces, the run aborts — and
writes neither the width vector nor the summary, modelled by `none` — exactly
when some reduced row maximum reaches `G` or some reduced row minimum is
negative; given row indices in range, that happens exactly when some rank
emitted a column index outside `[0, G)`; and in a run that passes the gate,
every row that received no retained entry on any rank has width 0 in the
emitted width vector (its negative sentinel width is replaced by 0). -/
theorem bmata_c8 (G : ℕ) (ranks : List (List (ℤ × ℤ))) (hG : 0 < G)
    (hwf : ∀ ps ∈ ranks, ∀ pr ∈ ps, 0 ≤ pr.1 ∧ pr.1 < (G : ℤ)) :
    (Bmata.ribbonOutput G ranks = none ↔
      ∃ g, g < G ∧ ((G : ℤ) ≤ Bmata.gJmax ranks (g : ℤ)
        ∨ Bmata.gJmin G ranks (g : ℤ) < 0))
    ∧ (Bmata.ribbonOutput G ranks = none ↔
      ∃ ps ∈ ranks, ∃ pr ∈ ps, ((G : ℤ) ≤ pr.2 ∨ pr.2 < 0))
    ∧ ∀ out, Bmata.ribbonOutput G ranks = some out →
        ∀ g, g < G → (∀ ps ∈ ranks, ∀ pr ∈ ps, pr.1 ≠ (g : ℤ)) →
          out.getD g 0 = 0 := by
  have hany : Bmata.ribbonOutput G ranks = none ↔
      ∃ g, g < G ∧ ((G : ℤ) ≤ Bmata.gJmax ranks (g : ℤ)
        ∨ Bmata.gJmin G ranks (g : ℤ) < 0) := by
    rw [Bmata.ribbonOutput]
    split_ifs with h1 h2
    · simp only [true_iff]
      obtain ⟨g, hg, hp⟩ := List.any_eq_true.mp h1
      exact ⟨g, List.mem_range.mp hg, Or.inl (by simpa using hp)⟩
    · simp only [true_iff]
      obtain ⟨g, hg, hp⟩ := List.any_eq_true.mp h2
      exact ⟨g, List.mem_range.mp hg, Or.inr (by simpa using hp)⟩
    · simp only [reduceCtorEq, false_iff]
      rintro ⟨g, hg, hbad | hbad⟩
      · exact absurd (List.any_eq_true.mpr
          ⟨g, List.mem_range.mpr hg, by simpa using hbad⟩) h1
      · exact absurd (List.any_eq_true.mpr
          ⟨g, List.mem_range.mpr hg, by simpa using hbad⟩) h2
  refine ⟨hany, ?_, ?_⟩
  · rw [hany]
    constructor
    · rintro ⟨g, hg, hbad | hbad⟩
      · by_contra hno
        push_neg at hno
        have hle : Bmata.gJmax ranks (g : ℤ) ≤ (G : ℤ) - 1 := by
          rw [Bmata.gJmax_le_iff]
          refine ⟨by omega, fun ps hps pr hpr _ => ?_⟩
          have := hno ps hps pr hpr
          omega
        omega
      · by_contra hno
        push_neg at hno
        have hle : (0 : ℤ) ≤ Bmata.gJmin G ranks (g : ℤ) := by
          rw [Bmata.le_gJmin_iff]
          refine ⟨by omega, fun ps hps pr hpr _ => ?_⟩
          have := hno ps hps pr hpr
          omega
        omega
    · rintro ⟨ps, hps, pr, hpr, hbad | hbad⟩
      · obtain ⟨hI0, hIG⟩ := hwf ps hps pr hpr
        refine ⟨pr.1.toNat, by omega, Or.inl ?_⟩
        have hcast : ((pr.1.toNat : ℕ) : ℤ) = pr.1 := Int.toNat_of_nonneg hI0
        rw [hcast]
        have hself := (Bmata.gJmax_le_iff ranks pr.1
          (Bmata.gJmax ranks pr.1)).mp le_rfl
        have := hself.2 ps hps pr hpr rfl
        omega
      · obtain ⟨hI0, hIG⟩ := hwf ps hps pr hpr
        refine ⟨pr.1.toNat, by omega, Or.inr ?_⟩
        have hcast : ((pr.1.toNat : ℕ) : ℤ) = pr.1 := Int.toNat_of_nonneg hI0
        rw [hcast]
        have hself := (Bmata.le_gJmin_iff G ranks pr.1
          (Bmata.gJmin G ranks pr.1)).mp le_rfl
        have := hself.2 ps hps pr hpr rfl
        omega
  · intro out hout g hg habsent
    have hmax : Bmata.gJmax ranks (g : ℤ) = -1 := by
      have hub : Bmata.gJmax ranks (g : ℤ) ≤ -1 := by
        rw [Bmata.gJmax_le_iff]
        exact ⟨le_rfl, fun ps hps pr hpr hrow =>
          absurd hrow (habsent ps hps pr hpr)⟩
      have hlb := ((Bmata.gJmax_le_iff ranks (g : ℤ)
        (Bmata.gJmax ranks (g : ℤ))).mp le_rfl).1
      omega
    have hmin : Bmata.gJmin G ranks (g : ℤ) = (G : ℤ) + 10 := by
      have hlb : (G : ℤ) + 10 ≤ Bmata.gJmin G ranks (g : ℤ) := by
        rw [Bmata.le_gJmin_iff]
        exact ⟨le_rfl, fun ps hps pr hpr hrow =>
          absurd hrow (habsent ps hps pr hpr)⟩
      have hub := ((Bmata.le_gJmin_iff G ranks (g : ℤ)
        (Bmata.gJmin G ranks (g : ℤ))).mp le_rfl).1
      omega
    have hsome : out
        = (Bmata.widths G ranks).map (fun w => if w < 0 then 0 else w) := by
      rw [Bmata.ribbonOutput] at hout
      split_ifs at hout
      exact (Option.some.inj hout).symm
    rw [hsome]
    have hg2 : g < ((Bmata.widths G ranks).map
        (fun w => if w < 0 then 0 else w)).length := by
      rw [List.length_map, Bmata.widths, List.length_map, List.length_range]
      exact hg
    rw [List.getD_eq_getElem _ _ hg2]
    simp only [List.getElem_map, Bmata.widths, List.getElem_range]
    rw [hmax, hmin, if_pos (by omega)]

/-- Witness for claim C8: with `G = 2` and a single rank holding the single
triple at (row, column) = (0, 0), the gate passes and the absent row 1 gets
width 0 in the emitted vector. -/
theorem bmata_c8_witness :
    Bmata.ribbonOutput 2 [[((0 : ℤ), (0 : ℤ))]] = some [0, 0] ∧
      ([0, 0] : List ℤ).getD 1 0 = 0 := by
  have hout : Bmata.ribbonOutput 2 [[((0 : ℤ), (0 : ℤ))]] = some [0, 0] := by
    decide
  have h := (bmata_c8 2 [[((0 : ℤ), (0 : ℤ))]] (by decide) (by decide)).2.2
  exact ⟨hout, h [0, 0] hout 1 (by decide) (by decide)⟩

/-- Setting one position leaves every other position unchanged. -/
lemma BTools.getD_set_ne {α : Type} (l : List α) (n m : ℕ) (v d : α)
    (h : n ≠ m) : (l.set n v).getD m d = l.getD m d := by
  rw [List.getD_eq_getElem?_getD, List.getD_eq_getElem?_getD,
    List.getElem?_set_ne h]

/-- The write loop succeeds when the arrays have room for every triple, it
preserves the array lengths, and it leaves every position outside the
written window unchanged. -/
lemma BTools.writeTriples_spec :
    ∀ (ts : List (ℚ × ℕ × ℕ)) (n : ℕ) (B : List ℚ) (I J : List ℤ),
      n + ts.length ≤ B.length → n + ts.length ≤ I.length →
      n + ts.length ≤ J.length →
      ∃ B' I' J', BTools.writeTriples ts n B I J = some (B', I', J')
        ∧ B'.length = B.length ∧ I'.length = I.length ∧ J'.length = J.length
        ∧ ∀ m, m < n ∨ n + ts.length ≤ m →
            B'.getD m 0 = B.getD m 0 ∧ I'.getD m 0 = I.getD m 0
              ∧ J'.getD m 0 = J.getD m 0 := by
  intro ts
  induction ts with
  | nil =>
    intro n B I J _ _ _
    exact ⟨B, I, J, rfl, rfl, rfl, rfl, fun m _ => ⟨rfl, rfl, rfl⟩⟩
  | cons t ts ih =>
    intro n B I J hB hI hJ
    obtain ⟨v, ig, jg⟩ := t
    have hlen : ((v, ig, jg) :: ts).length = ts.length + 1 :=
      List.length_cons _ _
    have hsB := List.length_set B n v
    have hsI := List.length_set I n (ig : ℤ)
    have hsJ := List.length_set J n (jg : ℤ)
    have hnB : n < B.length := by omega
    have hnI : n < I.length := by omega
    have hnJ : n < J.length := by omega
    rw [BTools.writeTriples, BTools.writeAt, BTools.writeAt, BTools.writeAt,
      if_pos hnB, if_pos hnI, if_pos hnJ]
    obtain ⟨B', I', J', hres, hlB, hlI, hlJ, hfr⟩ :=
      ih (n + 1) (B.set n v) (I.set n (ig : ℤ)) (J.set n (jg : ℤ))
        (by omega) (by omega) (by omega)
    refine ⟨B', I', J', hres, by omega, by omega, by omega, fun m hm => ?_⟩
    have hm' : m < n + 1 ∨ n + 1 + ts.length ≤ m := by omega
    have hne : n ≠ m := by omega
    obtain ⟨f1, f2, f3⟩ := hfr m hm'
    exact ⟨by rw [f1, BTools.getD_set_ne _ _ _ _ _ hne],
      by rw [f2, BTools.getD_set_ne _ _ _ _ _ hne],
      by rw [f3, BTools.getD_set_ne _ _ _ _ _ hne]⟩

/-- Claim C10: when the capacity check does not fire and the output arrays
have room for every emitted triple, the stateful kernel succeeds, returns
exactly the emitted count, writes only the first `n` slots of the output
arrays (positions at or beyond `n` keep their previous contents, and the
lengths are unchanged), and the scratch attributes after the call are the
written arrays themselves — no rebinding happens.  The input arrays and the
configuration are read-only throughout (the reshapes of btools.py lines 268
and 281 rebind local names only). -/
theorem do_thresh_c10 (nz ny nx nprocs E : ℕ) (thresh : ℚ) (myrank irecv : ℕ)
    (ldata rdata : ℕ → ℚ) (lenL lenR : ℕ) (st : BTools.DTState)
    (hcap : ¬ st.Bp.length < lenL * lenR)
    (hB : (BTools.do_thresh nz ny nx nprocs E thresh myrank irecv
        ldata rdata).length ≤ st.Bp.length)
    (hI : (BTools.do_thresh nz ny nx nprocs E thresh myrank irecv
        ldata rdata).length ≤ st.Ip.length)
    (hJ : (BTools.do_thresh nz ny nx nprocs E thresh myrank irecv
        ldata rdata).length ≤ st.Jp.length) :
    ∃ B' I' J',
      BTools.do_threshSt nz ny nx nprocs E thresh myrank irecv ldata rdata
          lenL lenR st
        = some ((BTools.do_thresh nz ny nx nprocs E thresh myrank irecv
            ldata rdata).length, B', I', J', ⟨B', I', J'⟩)
      ∧ B'.length = st.Bp.length ∧ I'.length = st.Ip.length
      ∧ J'.length = st.Jp.length
      ∧ ∀ m, (BTools.do_thresh nz ny nx nprocs E thresh myrank irecv
            ldata rdata).length ≤ m →
          B'.getD m 0 = st.Bp.getD m 0 ∧ I'.getD m 0 = st.Ip.getD m 0
            ∧ J'.getD m 0 = st.Jp.getD m 0 := by
  obtain ⟨B', I', J', hres, hlB, hlI, hlJ, hfr⟩ :=
    BTools.writeTriples_spec
      (BTools.do_thresh nz ny nx nprocs E thresh myrank irecv ldata rdata)
      0 st.Bp st.Ip st.Jp (by omega) (by omega) (by omega)
  refine ⟨B', I', J', ?_, hlB, hlI, hlJ, fun m hm => hfr m (Or.inr (by omega))⟩
  rw [BTools.do_threshSt]
  simp only [hres, if_neg hcap]

/-- Claim C6, evaluated at the failing input: on the two-column grid with
all samples 1 and threshold 0, the kernel finds 4 qualifying triples, and a
`do_thresh` call whose output arrays have capacity 1 — smaller than the
needed `len(ldata)*len(rdata) = 4`, so the reallocation branch fires —
raises an IndexError at the second write instead of storing the triples:
the branch rebinds the scratch attributes to fresh arrays but the write
loop keeps writing the stale parameter arrays. -/
theorem do_thresh_c6_code_bug :
    (BTools.do_thresh 1 1 2 1 1 0 0 0 (fun _ => 1) (fun _ => 1)).length = 4 ∧
      (([0] : List ℚ).length < 2 * 2) ∧
      BTools.do_threshSt 1 1 2 1 1 0 0 0 (fun _ => 1) (fun _ => 1) 2 2
        ⟨[0], [0], [0]⟩ = none := by
  have hts : BTools.do_thresh 1 1 2 1 1 0 0 0 (fun _ => 1) (fun _ => 1)
      = [(1, 0, 0), (1, 0, 1), (1, 1, 0), (1, 1, 1)] := by
    norm_num [BTools.do_thresh, BTools.pairEmit, BTools.meanSq, BTools.meanProd,
      BTools.sumTo, BTools.ccoefGE, BTools.lvalue, BTools.rvalue,
      BTools.decodeIdx, BTools.nxmaxOf, BTools.ibOf, BTools.widthOf,
      BTools.range, List.range_succ, show Int.toNat 2 = 2 from rfl,
      Int.toNat_zero, Int.toNat_one]
  refine ⟨by rw [hts]; rfl, by decide, ?_⟩
  simp only [BTools.do_threshSt, hts]
  norm_num [BTools.writeTriples, BTools.writeAt]

/-- Witness for claim C10: a one-point grid with all samples 1 and threshold
0 emits one triple; on output arrays of capacity 2 the kernel succeeds with
count 1 and leaves slot 1 untouched. -/
theorem do_thresh_c10_witness :
    ∃ B' I' J',
      BTools.do_threshSt 1 1 1 1 1 0 0 0 (fun _ => 1) (fun _ => 1) 1 1
          ⟨[5, 5], [7, 7], [7, 7]⟩
        = some ((BTools.do_thresh 1 1 1 1 1 0 0 0 (fun _ => 1)
            (fun _ => 1)).length, B', I', J', ⟨B', I', J'⟩)
      ∧ B'.getD 1 0 = ([5, 5] : List ℚ).getD 1 0 := by
  have hts : (BTools.do_thresh 1 1 1 1 1 0 0 0 (fun _ => 1)
      (fun _ => 1)).length = 1 := by
    have h : BTools.do_thresh 1 1 1 1 1 0 0 0 (fun _ => 1) (fun _ => 1)
        = [(1, 0, 0)] := by
      norm_num [BTools.do_thresh, BTools.pairEmit, BTools.meanSq,
        BTools.meanProd, BTools.sumTo, BTools.ccoefGE, BTools.lvalue,
        BTools.rvalue, BTools.decodeIdx, BTools.nxmaxOf, BTools.ibOf,
        BTools.widthOf, BTools.range, List.range_succ,
        Int.toNat_zero, Int.toNat_one]
    rw [h]
    rfl
  obtain ⟨B', I', J', hsome, -, -, -, hfr⟩ :=
    do_thresh_c10 1 1 1 1 1 0 0 0 (fun _ => 1) (fun _ => 1) 1 1
      ⟨[5, 5], [7, 7], [7, 7]⟩ (by decide) (by simp [hts]) (by simp [hts])
      (by simp [hts])
  exact ⟨B', I', J', hsome, (hfr 1 (by simp [hts])).1⟩
